import Mathlib

/-!
Verification of the editing core of the silent-edit text editor
(src/selection.js, src/core/buffer.js, src/features/clipboard.js).

JavaScript strings are modelled as `List Char` (JS `substring`, `slice`,
`split`, `indexOf`, `+` become `take`/`drop`/`splitOn`/search/`++`).
JS arrays are `List`; `arr[i]` reads are `getD i default` (out-of-range
reads give `undefined`, which the source always coalesces with `|| ""`),
and `arr[i] = x` writes are `List.set` (the source only writes in-range
indices on the paths modelled here, except where noted).  JS numbers that
can be `-1` (`primaryIndex`, `historyIndex`) are `Int`; all other indices
are `Nat`.  History entries carry a wall-clock `timestamp` that no code
reads; it is dropped from the model.
-/

namespace SilentEdit

/-- A JS string, as its list of characters. -/
abbrev Line := List Char

/-- Shorthand for turning a Lean string literal into the `List Char` model. -/
def str (s : String) : Line := s.data

/-- The newline character used by `split("\n")` / `join("\n")`. -/
def nl : Char := '\n'

/-- A `(row, col)` position (the `{row, col}` objects of the source). -/
structure Pos where
  row : Nat
  col : Nat
deriving DecidableEq

/-- Normalized bounds of a range, as returned by `SelectionRange.getBounds`. -/
structure Bounds where
  startRow : Nat
  startCol : Nat
  endRow : Nat
  endCol : Nat
deriving DecidableEq

/-- Start position of a bounds value. -/
def Bounds.startPos (b : Bounds) : Pos := ⟨b.startRow, b.startCol⟩

/-- End position of a bounds value. -/
def Bounds.endPos (b : Bounds) : Pos := ⟨b.endRow, b.endCol⟩

/-- `class SelectionRange`: an anchor/head pair (selection.js). -/
structure SelectionRange where
  anchor : Pos
  head : Pos
deriving DecidableEq

namespace SelectionRange

/-- `SelectionRange.fromPositions` (selection.js). -/
def fromPositions (anchorRow anchorCol headRow headCol : Nat) : SelectionRange :=
  ⟨⟨anchorRow, anchorCol⟩, ⟨headRow, headCol⟩⟩

/-- `clone()` (selection.js); value semantics make it the identity. -/
def clone (r : SelectionRange) : SelectionRange := r

/-- `isEmpty()` (selection.js). -/
def isEmpty (r : SelectionRange) : Bool :=
  r.anchor.row == r.head.row && r.anchor.col == r.head.col

/-- `getBounds()` (selection.js): normalizes the directional anchor/head pair. -/
def getBounds (r : SelectionRange) : Bounds :=
  if r.anchor.row < r.head.row ∨
      (r.anchor.row = r.head.row ∧ r.anchor.col ≤ r.head.col) then
    ⟨r.anchor.row, r.anchor.col, r.head.row, r.head.col⟩
  else
    ⟨r.head.row, r.head.col, r.anchor.row, r.anchor.col⟩

/-- `contains(row, col)` (selection.js).  The source's `if (!bounds)` guard is
dead code (`getBounds` never returns a falsy value) and is not modelled. -/
def contains (r : SelectionRange) (row col : Nat) : Bool :=
  let b := r.getBounds
  if row < b.startRow ∨ row > b.endRow then false
  else if row = b.startRow ∧ col < b.startCol then false
  else if row = b.endRow ∧ col ≥ b.endCol then false
  else true

/-- `isRowSelected(row)` (selection.js). -/
def isRowSelected (r : SelectionRange) (row : Nat) : Bool :=
  if r.isEmpty then false
  else
    let b := r.getBounds
    decide (row ≥ b.startRow ∧ row ≤ b.endRow)

end SelectionRange

/-- `class Buffer` (core/buffer.js): lines, modified flag and snapshot
history.  A history entry is the snapshotted line list (the source also
stores a timestamp that nothing reads). -/
structure BufferSt where
  lines : List Line
  modified : Bool
  history : List (List Line)
  historyIndex : Int
deriving DecidableEq

namespace BufferSt

/-- The `new Buffer()` initial state. -/
def init : BufferSt := ⟨[[]], false, [], -1⟩

/-- `getLine(row)` (core/buffer.js): `this.lines[row] || ""`. -/
def getLine (b : BufferSt) (row : Nat) : Line := b.lines.getD row []

/-- `getLineCount()` (core/buffer.js). -/
def getLineCount (b : BufferSt) : Nat := b.lines.length

/-- `getText()` (core/buffer.js): `this.lines.join("\n")`. -/
def joinLines : List Line → Line
  | [] => []
  | l :: ls => if ls = [] then l else l ++ nl :: joinLines ls

/-- `getText()` (core/buffer.js). -/
def getText (b : BufferSt) : Line := joinLines b.lines

/-- `saveToHistory()` (core/buffer.js): truncate redo entries, push a
snapshot of the current lines, cap at 100 entries, reset the index. -/
def saveToHistory (b : BufferSt) : BufferSt :=
  let maxHistory : Nat := 100
  -- if (this.historyIndex < this.history.length - 1) slice(0, historyIndex + 1)
  let hist0 :=
    if b.historyIndex < (b.history.length : Int) - 1 then
      b.history.take (b.historyIndex + 1).toNat
    else b.history
  let hist1 := hist0 ++ [b.lines]
  let hist2 := if hist1.length > maxHistory then hist1.drop 1 else hist1
  { b with history := hist2, historyIndex := (hist2.length : Int) - 1 }

/-- `undo()` (core/buffer.js); returns the new state and the boolean result. -/
def undo (b : BufferSt) : BufferSt × Bool :=
  if 0 < b.historyIndex then
    let i := (b.historyIndex - 1).toNat
    ({ b with historyIndex := b.historyIndex - 1,
              lines := b.history.getD i [], modified := true }, true)
  else (b, false)

/-- `redo()` (core/buffer.js). -/
def redo (b : BufferSt) : BufferSt × Bool :=
  if b.historyIndex < (b.history.length : Int) - 1 then
    let i := (b.historyIndex + 1).toNat
    ({ b with historyIndex := b.historyIndex + 1,
              lines := b.history.getD i [], modified := true }, true)
  else (b, false)

/-- `while (this.lines.length <= row) this.lines.push("")` — pad with empty
lines until `row` is a valid index. -/
def padTo (lines : List Line) (row : Nat) : List Line :=
  lines ++ List.replicate (row + 1 - lines.length) []

/-- `insertChar(row, col, char)` (core/buffer.js). -/
def insertChar (b : BufferSt) (row col : Nat) (char : Line) : BufferSt :=
  let lines0 := padTo b.lines row
  let line := lines0.getD row []
  let lines1 := lines0.set row (line.take col ++ char ++ line.drop col)
  saveToHistory { b with lines := lines1, modified := true }

/-- `deleteChar(row, col)` (core/buffer.js). -/
def deleteChar (b : BufferSt) (row col : Nat) : BufferSt × Bool :=
  if row ≥ b.lines.length then (b, false)
  else
    let line := b.lines.getD row []
    if 0 < col then
      let lines1 := b.lines.set row (line.take (col - 1) ++ line.drop col)
      (saveToHistory { b with lines := lines1, modified := true }, true)
    else if 0 < row then
      -- join with previous line, then splice the row out
      let prevLine := b.lines.getD (row - 1) []
      let lines1 := (b.lines.set (row - 1) (prevLine ++ line)).eraseIdx row
      (saveToHistory { b with lines := lines1, modified := true }, true)
    else (b, false)

/-- `insertLine(row, col)` (core/buffer.js): split the line at `col`.
`splice(row + 1, 0, x)` is insertion at index `row + 1`. -/
def insertLine (b : BufferSt) (row col : Nat) : BufferSt :=
  let currentLine := b.lines.getD row []
  let lines1 := b.lines.set row (currentLine.take col)
  let lines2 := lines1.take (row + 1) ++ [currentLine.drop col] ++ lines1.drop (row + 1)
  saveToHistory { b with lines := lines2, modified := true }

/-- The success path of `loadFile` (core/buffer.js), as a function of the
file's content (the `fs` read itself is outside the model): split on
newlines, reset history.  The `if (lines.length === 0)` guard is kept even
though `split` never returns an empty array. -/
def loadFileContent (b : BufferSt) (content : Line) : BufferSt :=
  let lines := content.splitOn nl
  let lines := if lines = [] then [[]] else lines
  { b with lines := lines, modified := false, history := [], historyIndex := -1 }

end BufferSt

/-- The external cursor handle (core/cursor.js): a mutable `(row, col)`.
`preferredCol` is omitted: none of the modelled operations read it. -/
structure Cursor where
  row : Nat
  col : Nat
deriving DecidableEq

/-- `clamp()` (core/cursor.js).  In `Nat`, `Math.max(0, ·)` is implicit and
`getLineCount() - 1` truncates at `0` exactly as the JS `max 0 (min ...)`
combination does. -/
def Cursor.clamp (c : Cursor) (b : BufferSt) : Cursor :=
  let row := min c.row (b.getLineCount - 1)
  let col := min c.col (b.getLine row).length
  ⟨row, col⟩

/-- `SelectionRange.fromCursor` (selection.js). -/
def SelectionRange.fromCursor (c : Cursor) : SelectionRange :=
  ⟨⟨c.row, c.col⟩, ⟨c.row, c.col⟩⟩

/-- The `sortRanges()` comparator as a relation: ascending by
`(startRow, startCol)` of the normalized bounds (selection.js). -/
def rangeLeP (a b : SelectionRange) : Prop :=
  a.getBounds.startRow < b.getBounds.startRow ∨
    (a.getBounds.startRow = b.getBounds.startRow ∧
      a.getBounds.startCol ≤ b.getBounds.startCol)

instance : DecidableRel rangeLeP := fun a b =>
  inferInstanceAs (Decidable (a.getBounds.startRow < b.getBounds.startRow ∨
    (a.getBounds.startRow = b.getBounds.startRow ∧
      a.getBounds.startCol ≤ b.getBounds.startCol)))

instance : IsTotal SelectionRange rangeLeP :=
  ⟨fun a b => by unfold rangeLeP; omega⟩

instance : IsTrans SelectionRange rangeLeP :=
  ⟨fun a b c => by unfold rangeLeP; omega⟩

/-- `sortRanges()` / `getOrderedRanges("asc")` (selection.js): JS
`Array.prototype.sort` is a stable sort by the comparator; it is modelled by
stable insertion sort with the comparator's non-strict order. -/
def sortRangesList (l : List SelectionRange) : List SelectionRange :=
  List.insertionSort rangeLeP l

/-- `class Selection` state (selection.js): the buffer and cursor it
references, its ranges, and the primary index (`-1` when empty). -/
structure SelSt where
  buffer : BufferSt
  cursor : Cursor
  ranges : List SelectionRange
  primaryIndex : Int
deriving DecidableEq

namespace SelSt

/-- `get active()` (selection.js). -/
def active (σ : SelSt) : Bool := !σ.ranges.isEmpty

/-- `hasContentSelection()` (selection.js). -/
def hasContentSelection (σ : SelSt) : Bool := σ.ranges.any (fun r => !r.isEmpty)

/-- `get primaryRange()` (selection.js): `null` when the index is invalid. -/
def primaryRange (σ : SelSt) : Option SelectionRange :=
  if σ.primaryIndex < 0 ∨ σ.primaryIndex ≥ (σ.ranges.length : Int) then none
  else some (σ.ranges.getD σ.primaryIndex.toNat ⟨⟨0, 0⟩, ⟨0, 0⟩⟩)

/-- `setPrimaryRange(index)` (selection.js). -/
def setPrimaryRange (σ : SelSt) (index : Int) : SelSt :=
  if index < 0 ∨ index ≥ (σ.ranges.length : Int) then σ
  else { σ with primaryIndex := index }

/-- `clear()` (selection.js). -/
def clear (σ : SelSt) : SelSt := { σ with ranges := [], primaryIndex := -1 }

/-- `setRanges(ranges, primaryIndex)` (selection.js). -/
def setRanges (σ : SelSt) (rs : List SelectionRange) (primaryIndex : Int) : SelSt :=
  let ranges := rs.map SelectionRange.clone
  if ranges.isEmpty then { σ with ranges := ranges, primaryIndex := -1 }
  else
    let sorted := sortRangesList ranges
    let pi :=
      if primaryIndex < 0 ∨ primaryIndex ≥ (sorted.length : Int) then
        (sorted.length : Int) - 1
      else primaryIndex
    { σ with ranges := sorted, primaryIndex := pi }

/-- `setRanges` with its JS default `primaryIndex = ranges.length - 1`. -/
def setRangesD (σ : SelSt) (rs : List SelectionRange) : SelSt :=
  σ.setRanges rs ((rs.length : Int) - 1)

/-- `start()` (selection.js). -/
def start (σ : SelSt) : SelSt :=
  σ.setRangesD [SelectionRange.fromCursor σ.cursor]

/-- `update()` (selection.js): moves the primary range's head to the cursor
(no re-sort).  `List.set`/`getD` model the in-place field write through the
valid `primaryIndex`. -/
def update (σ : SelSt) : SelSt :=
  match σ.primaryRange with
  | none => σ
  | some primary =>
    let moved := { primary with head := Pos.mk σ.cursor.row σ.cursor.col }
    { σ with ranges := σ.ranges.set σ.primaryIndex.toNat moved }

/-- `toggle()` (selection.js). -/
def toggle (σ : SelSt) : SelSt := if σ.active then σ.clear else σ.start

/-- `extendTo(row, col)` (selection.js): like `update`, no re-sort. -/
def extendTo (σ : SelSt) (row col : Nat) : SelSt :=
  match σ.primaryRange with
  | none => σ.start
  | some primary =>
    let moved := { primary with head := Pos.mk row col }
    { σ with ranges := σ.ranges.set σ.primaryIndex.toNat moved }

/-- `collapseToPrimaryRange()` (selection.js). -/
def collapseToPrimaryRange (σ : SelSt) : SelSt :=
  match σ.primaryRange with
  | none => σ.clear
  | some primary => σ.setRangesD [primary]

/-- `ensurePrimaryRange()` (selection.js). -/
def ensurePrimaryRange (σ : SelSt) : SelSt :=
  if σ.active then σ else σ.setRangesD [SelectionRange.fromCursor σ.cursor]

end SelSt

/-- `_getTextForBounds(bounds)` (selection.js; duplicated in
features/clipboard.js): the buffer text covered by normalized bounds. -/
def getTextForBounds (buf : BufferSt) (b : Bounds) : Line :=
  if b.startRow = b.endRow then
    ((buf.getLine b.startRow).take b.endCol).drop b.startCol
  else
    let first := (buf.getLine b.startRow).drop b.startCol
    let mids := (List.range (b.endRow - b.startRow - 1)).map
      (fun i => buf.getLine (b.startRow + 1 + i))
    let last := (buf.getLine b.endRow).take b.endCol
    BufferSt.joinLines (first :: (mids ++ [last]))

/-- `getText()` (selection.js): ascending pieces joined with newlines. -/
def SelSt.getText (σ : SelSt) : Line :=
  if ¬ σ.active then []
  else BufferSt.joinLines
    ((sortRangesList σ.ranges).map (fun r => getTextForBounds σ.buffer r.getBounds))

/-- `_deleteBounds(bounds)` (selection.js), as a pure function on the line
list.  `splice(startRow + 1, endRow - startRow)` removes that many rows
starting at `startRow + 1`. -/
def deleteBounds (lines : List Line) (b : Bounds) : List Line :=
  if b.startRow = b.endRow then
    let line := lines.getD b.startRow []
    lines.set b.startRow (line.take b.startCol ++ line.drop b.endCol)
  else
    let firstLine := lines.getD b.startRow []
    let lastLine := lines.getD b.endRow []
    let lines1 := lines.set b.startRow (firstLine.take b.startCol ++ lastLine.drop b.endCol)
    lines1.take (b.startRow + 1) ++ lines1.drop (b.startRow + 1 + (b.endRow - b.startRow))

/-- `_insertTextAt(row, col, text)` (selection.js), returning the new line
list together with the reported insertion-end position.  The source's loop
of single-element `splice(insertIndex, 0, parts[i])` calls at consecutive
indices `row+1, row+2, ...` inserts the block `parts.tail` at `row + 1`. -/
def insertTextAt (lines : List Line) (row col : Nat) (text : Line) : List Line × Pos :=
  if text.isEmpty then (lines, ⟨row, col⟩)
  else
    let lines0 := BufferSt.padTo lines row
    let originalLine := lines0.getD row []
    let before := originalLine.take col
    let after := originalLine.drop col
    let parts := text.splitOn nl
    if parts.length = 1 then
      let p0 := parts.getD 0 []
      (lines0.set row (before ++ p0 ++ after), ⟨row, col + p0.length⟩)
    else
      let p0 := parts.getD 0 []
      let lines1 := lines0.set row (before ++ p0)
      let lines2 := lines1.take (row + 1) ++ parts.tail ++ lines1.drop (row + 1)
      let lastRow := row + parts.length - 1
      let lines3 := lines2.set lastRow (lines2.getD lastRow [] ++ after)
      (lines3, ⟨lastRow, (parts.getLastD []).length⟩)

/-- `_normalizeBounds(bounds)` (selection.js). -/
def normalizeBounds (b : Bounds) : Bounds :=
  if b.startRow < b.endRow ∨ (b.startRow = b.endRow ∧ b.startCol ≤ b.endCol) then b
  else ⟨b.endRow, b.endCol, b.startRow, b.startCol⟩

/-- `_isEmptyBounds(bounds)` (selection.js). -/
def isEmptyBounds (b : Bounds) : Bool :=
  b.startRow == b.endRow && b.startCol == b.endCol

/-- `_boundsKey(bounds)` (selection.js) builds the string
`"sr:sc:er:ec"`, which is injective on natural-number 4-tuples; the model
therefore uses the bounds value itself as the key. -/
def boundsKey (b : Bounds) : Bounds := b

/-- A callback result: JS `getReplacement` may return a plain string or an
object `.obj text bounds` in which either field may be `undefined`
(`none`).  Returning JS `null`/`undefined` is `Option.none` at the
call site. -/
inductive CbRes where
  | plain (text : Line)
  | obj (text : Option Line) (bounds : Option Bounds)

/-- The `getReplacement(range, bounds, index)` callback type. -/
abbrev Callback := SelectionRange → Bounds → Nat → Option CbRes

/-- One entry of the `actions` array built by `replaceRanges`
(selection.js): whether it modifies, its normalized target bounds, and its
replacement text. -/
structure EditAction where
  perform : Bool
  bounds : Bounds
  text : Line
deriving DecidableEq

/-- The per-range action computation inside `replaceRanges` (selection.js). -/
def computeAction (cb : Callback) (range : SelectionRange) (index : Nat) : EditAction :=
  let originalBounds := range.getBounds
  match cb range originalBounds index with
  | none => ⟨false, originalBounds, []⟩
  | some res =>
    let text := match res with | .plain t => t | .obj t _ => t.getD []
    let targetBounds :=
      match res with | .plain _ => originalBounds | .obj _ b => b.getD originalBounds
    let normalized := normalizeBounds targetBounds
    ⟨!(isEmptyBounds normalized) || !text.isEmpty, normalized, text⟩

/-- The body of one iteration of the descending application loop in
`replaceRanges` (selection.js): delete the target span if non-empty, then
insert the replacement text at its start. -/
def applyOneAction (lines : List Line) (a : EditAction) : List Line × Pos :=
  let lines1 := if isEmptyBounds a.bounds then lines else deleteBounds lines a.bounds
  insertTextAt lines1 a.bounds.startRow a.bounds.startCol a.text

/-- The descending application loop of `replaceRanges` (selection.js):
`for (i = actions.length - 1; i >= 0; i--)`.  Recursing on the tail first
applies the later actions first; the returned positions are each action's
`newPosition`, in action (ascending) order. -/
def applyActionsDesc : List EditAction → List Line → List Line × List Pos
  | [], lines => (lines, [])
  | a :: rest, lines =>
    let res := applyActionsDesc rest lines
    if a.perform then
      let res2 := applyOneAction res.1 a
      (res2.1, res2.2 :: res.2)
    else
      (res.1, Pos.mk a.bounds.startRow a.bounds.startCol :: res.2)

/-- The `actions` array of `replaceRanges` (selection.js): one action per
range, in the ascending (`getOrderedRanges("asc")`) order, built by the
callback. -/
def replaceActions (σ : SelSt) (cb : Callback) : List EditAction :=
  (sortRangesList σ.ranges).enum.map (fun p => computeAction cb p.2 p.1)

/-- The buffer of `replaceRanges` after its single `saveToHistory()` call
and the descending application loop (selection.js). -/
def replaceBufferAfter (σ : SelSt) (cb : Callback) : BufferSt :=
  let buf1 := σ.buffer.saveToHistory
  { buf1 with lines := (applyActionsDesc (replaceActions σ cb) buf1.lines).1,
              modified := true }

/-- The `newRanges` array of `replaceRanges` (selection.js): a collapsed
range at each action's `newPosition`. -/
def replaceNewRanges (σ : SelSt) (cb : Callback) : List SelectionRange :=
  (applyActionsDesc (replaceActions σ cb) σ.buffer.saveToHistory.lines).2.map
    (fun p => SelectionRange.mk p p)

/-- The primary-index computation of `replaceRanges` (selection.js): find
the first ordered range whose bounds key equals the original primary's;
fall back to the last new range. -/
def replacePrimaryIdx0 (σ : SelSt) (cb : Callback) : Int :=
  match σ.primaryRange.map (fun r => boundsKey r.getBounds) with
  | some k =>
    match ((sortRangesList σ.ranges).map (fun r => boundsKey r.getBounds)).findIdx?
        (fun k2 => k2 == k) with
    | some i => (i : Int)
    | none => ((replaceNewRanges σ cb).length : Int) - 1
  | none => ((replaceNewRanges σ cb).length : Int) - 1

/-- The `this.setRanges(newRanges, primaryIndex)` call at the end of the
modifying path of `replaceRanges` (selection.js). -/
def replaceAssembled (σ : SelSt) (cb : Callback) : SelSt :=
  SelSt.setRanges { σ with buffer := replaceBufferAfter σ cb }
    (replaceNewRanges σ cb) (replacePrimaryIdx0 σ cb)

/-- `replaceRanges(getReplacement)` (selection.js): the atomic multi-range
replace primitive.  Returns the new state and the boolean result. -/
def SelSt.replaceRanges (σ : SelSt) (cb : Callback) : SelSt × Bool :=
  if ¬ σ.active then (σ, false)
  else if (sortRangesList σ.ranges).isEmpty then (σ, false)
  else if ¬ (replaceActions σ cb).any (·.perform) then (σ, false)
  else
    let σ1 := replaceAssembled σ cb
    let σ2 :=
      match σ1.primaryRange with
      | some primary =>
        { σ1 with cursor := Cursor.clamp ⟨primary.head.row, primary.head.col⟩ σ1.buffer }
      | none => σ1
    (σ2, true)

/-- `delete()` (selection.js): remove the content of all non-empty ranges,
descending, then collapse to the primary's start. -/
def SelSt.delete (σ : SelSt) : SelSt × Bool :=
  if ¬ σ.active then (σ, false)
  else
    let primaryBounds := σ.primaryRange.map SelectionRange.getBounds
    let rangesNE := (sortRangesList σ.ranges).filter (fun r => !r.isEmpty)
    if rangesNE.isEmpty then (σ.clear, false)
    else
      let buf1 := σ.buffer.saveToHistory
      let newLines := rangesNE.foldr (fun r ls => deleteBounds ls r.getBounds) buf1.lines
      let buf2 := { buf1 with lines := newLines, modified := true }
      let targetBounds := primaryBounds.getD ((rangesNE.getD 0 ⟨⟨0,0⟩,⟨0,0⟩⟩).getBounds)
      let σ1 := SelSt.clear { σ with buffer := buf2 }
      let σ2 := { σ1 with
        cursor := Cursor.clamp ⟨targetBounds.startRow, targetBounds.startCol⟩ σ1.buffer }
      (σ2, true)

/-- `selectLine(row)` (selection.js). -/
def SelSt.selectLine (σ : SelSt) (row : Nat) : SelSt :=
  let line := σ.buffer.getLine row
  let range := SelectionRange.fromPositions row 0 row line.length
  let σ1 := σ.setRangesD [range]
  { σ1 with cursor := ⟨range.head.row, range.head.col⟩ }

/-- `selectAll()` (selection.js). -/
def SelSt.selectAll (σ : SelSt) : SelSt :=
  let lastRow := σ.buffer.getLineCount - 1
  let lastCol := (σ.buffer.getLine lastRow).length
  let range := SelectionRange.fromPositions 0 0 lastRow lastCol
  let σ1 := σ.setRangesD [range]
  { σ1 with cursor := ⟨range.head.row, range.head.col⟩ }

/-- JS `\w` (alnum or underscore), used by `selectWord()`. -/
def isWordChar (c : Char) : Bool := c.isAlphanum || c == '_'

/-- `while (start > 0 && p(line[start - 1])) start--` (selection.js,
`selectWord`): structural recursion on the column. -/
def scanLeftWhile (p : Char → Bool) (line : Line) : Nat → Nat
  | 0 => 0
  | s + 1 => if p (line.getD s ' ') then scanLeftWhile p line s else s + 1

/-- `while (end < line.length && p(line[end])) end++` (selection.js,
`selectWord`): fuelled by the remaining distance to the end of the line. -/
def scanRightWhileAux (p : Char → Bool) (line : Line) : Nat → Nat → Nat
  | 0, e => e
  | f + 1, e =>
    if e < line.length && p (line.getD e ' ') then scanRightWhileAux p line f (e + 1)
    else e

/-- The right-moving scan with exactly enough fuel to reach the line end. -/
def scanRightWhile (p : Char → Bool) (line : Line) (e : Nat) : Nat :=
  scanRightWhileAux p line (line.length - e) e

/-- `selectWord()` (selection.js).  `if (!line)` is the JS falsy test for
the empty string. -/
def SelSt.selectWord (σ : SelSt) : SelSt × Bool :=
  let line := σ.buffer.getLine σ.cursor.row
  let col := σ.cursor.col
  if line.isEmpty then (σ.clear, false)
  else
    let se :=
      if col < line.length && isWordChar (line.getD col ' ') then
        (scanLeftWhile isWordChar line col, scanRightWhile isWordChar line col)
      else
        let s1 := scanLeftWhile (fun c => !isWordChar c) line col
        let s2 := scanLeftWhile isWordChar line s1
        let e1 := scanRightWhile (fun c => !isWordChar c) line col
        let e2 := scanRightWhile isWordChar line e1
        (s2, e2)
    if se.1 < se.2 then
      let range := SelectionRange.fromPositions σ.cursor.row se.1 σ.cursor.row se.2
      let σ1 := σ.setRangesD [range]
      ({ σ1 with cursor := ⟨σ1.cursor.row, se.2⟩ }, true)
    else (σ.clear, false)

/-- `addRange(range, makePrimary)` (selection.js).  JS locates the pushed
object by identity; the model locates the first equal value, which is a
valid index in exactly the same cases. -/
def SelSt.addRange (σ : SelSt) (range : SelectionRange) (makePrimary : Bool) : SelSt :=
  let cloned := range.clone
  let sorted := sortRangesList (σ.ranges ++ [cloned])
  if makePrimary then
    let pi : Int :=
      match sorted.findIdx? (fun r => r == cloned) with
      | some i => (i : Int)
      | none => (sorted.length : Int) - 1
    { σ with ranges := sorted, primaryIndex := pi }
  else { σ with ranges := sorted }

/-- `deleteBackward()` (selection.js), expressed through `replaceRanges`. -/
def SelSt.deleteBackward (σ : SelSt) : SelSt × Bool :=
  if ¬ σ.active then (σ, false)
  else
    σ.replaceRanges (fun range bounds _ =>
      if !range.isEmpty then some (.obj (some []) (some bounds))
      else if 0 < bounds.startCol then
        some (.obj (some [])
          (some ⟨bounds.startRow, bounds.startCol - 1, bounds.startRow, bounds.startCol⟩))
      else if bounds.startRow = 0 then none
      else
        let prevLineLength := (σ.buffer.getLine (bounds.startRow - 1)).length
        some (.obj (some [])
          (some ⟨bounds.startRow - 1, prevLineLength, bounds.startRow, bounds.startCol⟩)))

/-- `deleteForward()` (selection.js), expressed through `replaceRanges`. -/
def SelSt.deleteForward (σ : SelSt) : SelSt × Bool :=
  if ¬ σ.active then (σ, false)
  else
    σ.replaceRanges (fun range bounds _ =>
      if !range.isEmpty then some (.obj (some []) (some bounds))
      else
        let line := σ.buffer.getLine bounds.startRow
        if bounds.startCol < line.length then
          some (.obj (some [])
            (some ⟨bounds.startRow, bounds.startCol, bounds.startRow, bounds.startCol + 1⟩))
        else if bounds.startRow + 1 ≥ σ.buffer.getLineCount then none
        else
          some (.obj (some [])
            (some ⟨bounds.startRow, bounds.startCol, bounds.startRow + 1, 0⟩)))

/-- `line.indexOf(needle, fromIndex)` (JS), fuelled: scan candidate start
positions from `i` upward.  For the non-empty needles reachable in the
source this matches JS exactly. -/
def indexOfFromAux (l needle : Line) : Nat → Nat → Option Nat
  | 0, _ => none
  | fuel + 1, i =>
    if i + needle.length ≤ l.length then
      if (l.drop i).take needle.length = needle then some i
      else indexOfFromAux l needle fuel (i + 1)
    else none

/-- `indexOf` with exactly enough fuel for every candidate position. -/
def indexOfFrom (l needle : Line) (i : Nat) : Option Nat :=
  indexOfFromAux l needle (l.length + 1 - i) i

/-- The `searchForward` closure of `addNextOccurrence` (selection.js),
fuelled: returns the start of the first match whose start is not in the
visited set.  The source mutates at the match site and returns `true`; the
model returns the found position and the caller performs that mutation. -/
def searchFwdAux (buf : BufferSt) (needle : Line) (visited : List Pos) :
    Nat → Nat → Nat → Option Pos
  | 0, _, _ => none
  | fuel + 1, row, col =>
    if row < buf.getLineCount then
      match indexOfFrom (buf.getLine row) needle col with
      | some index =>
        if Pos.mk row index ∈ visited then
          searchFwdAux buf needle visited fuel row (index + max 1 needle.length)
        else some ⟨row, index⟩
      | none => searchFwdAux buf needle visited fuel (row + 1) 0
    else none

/-- The wrap-around loop of `addNextOccurrence` (selection.js), fuelled:
like `searchFwdAux` but breaking (returning nothing) when the match start
is the original primary's start. -/
def searchWrapAux (buf : BufferSt) (needle : Line) (visited : List Pos)
    (originalKey : Pos) : Nat → Nat → Nat → Option Pos
  | 0, _, _ => none
  | fuel + 1, row, col =>
    if row < buf.getLineCount then
      match indexOfFrom (buf.getLine row) needle col with
      | some index =>
        if Pos.mk row index = originalKey then none
        else if Pos.mk row index ∈ visited then
          searchWrapAux buf needle visited originalKey fuel row (index + max 1 needle.length)
        else some ⟨row, index⟩
      | none => searchWrapAux buf needle visited originalKey fuel (row + 1) 0
    else none

/-- The mutation `addNextOccurrence` performs at a found match start `p`
with needle length `n` (selection.js): push the clone, re-sort, locate it
(`indexOf`; `-1` is unreachable since the clone is in the list), make it
primary, move and clamp the cursor. -/
def addOccurrenceSuccess (σ : SelSt) (p : Pos) (n : Nat) : SelSt :=
  let cloned := SelectionRange.fromPositions p.row p.col p.row (p.col + n)
  let sorted := sortRangesList (σ.ranges ++ [cloned])
  let pi : Int :=
    match sorted.findIdx? (fun r => r == cloned) with
    | some i => (i : Int)
    | none => -1
  let σ1 := { σ with ranges := sorted, primaryIndex := pi }
  { σ1 with cursor := Cursor.clamp ⟨cloned.head.row, cloned.head.col⟩ σ1.buffer }

/-- `addNextOccurrence(options)` (selection.js).  `fuel` bounds the two
scan loops (the source's loops terminate because positions advance; any
fuel at least `lineCount * (maxLineLength + 2)` is enough). -/
def SelSt.addNextOccurrence (fuel : Nat) (σ : SelSt) (loop : Bool) : SelSt × Bool :=
  if ¬ σ.active then σ.selectWord
  else
    match σ.primaryRange with
    | none => (σ, false)
    | some primary =>
      let primaryBounds := primary.getBounds
      let searchText := getTextForBounds σ.buffer primaryBounds
      if searchText.isEmpty then (σ, false)
      else
        let visited := σ.ranges.map (fun r => r.getBounds.startPos)
        let originalKey := primaryBounds.startPos
        let found :=
          match searchFwdAux σ.buffer searchText visited fuel
              primaryBounds.endRow primaryBounds.endCol with
          | some p => some p
          | none =>
            if loop then searchWrapAux σ.buffer searchText visited originalKey fuel 0 0
            else none
        match found with
        | none => (σ, false)
        | some p => (addOccurrenceSuccess σ p searchText.length, true)

/-! ### Clipboard (features/clipboard.js) -/

/-- `class Clipboard` payload state (features/clipboard.js). -/
structure ClipboardSt where
  content : Line
  isLinewise : Bool
deriving DecidableEq

/-- JS `x || y` on strings (and on `undefined`, which coalesces the same
way as the empty string does). -/
def jsOrLine (a b : Line) : Line := if a.isEmpty then b else a

/-- `prepareTextForDistribution(cursorCount)` (features/clipboard.js).
The `N > C` branch (`Array.from`) and the `N < C` branch (push loop) both
compute `lines[i % lines.length]` for `i < cursorCount`; they are kept as
the source's separate branches. -/
def ClipboardSt.prepareTextForDistribution (c : ClipboardSt) (cursorCount : Nat) : List Line :=
  if c.content.isEmpty then []
  else if c.content.contains nl then
    let lines := c.content.splitOn nl
    if lines.length = cursorCount then lines
    else if lines.length > cursorCount then
      (List.range cursorCount).map (fun i => lines.getD (i % lines.length) [])
    else
      (List.range cursorCount).map (fun i => lines.getD (i % lines.length) [])
  else List.replicate cursorCount c.content

/-- The text `_pasteMultiCursor` hands to the cursor at `index`
(features/clipboard.js): `textParts[index] || textParts[textParts.length - 1]
|| ""`.  An out-of-range read gives `undefined`; both it and the empty
string are falsy, so `getD _ []` models the coalescing faithfully. -/
def textForCursorJS (textParts : List Line) (index : Nat) : Line :=
  jsOrLine (textParts.getD index [])
    (jsOrLine (textParts.getD (textParts.length - 1) []) [])

/-- `_pasteSingleCursor(buffer, cursor)` (features/clipboard.js). -/
def ClipboardSt.pasteSingleCursor (c : ClipboardSt) (buf : BufferSt) (cur : Cursor) :
    (BufferSt × Cursor) × Bool :=
  if c.content.isEmpty then ((buf, cur), false)
  else
    let buf1 := buf.saveToHistory
    if c.isLinewise then
      -- the splice loop inserts the block right below the cursor row
      let lines := c.content.splitOn nl
      let newLines := buf1.lines.take (cur.row + 1) ++ lines ++ buf1.lines.drop (cur.row + 1)
      (({ buf1 with lines := newLines, modified := true }, ⟨cur.row + 1, 0⟩), true)
    else
      let line := buf1.getLine cur.row
      let before := line.take cur.col
      let after := line.drop cur.col
      if c.content.contains nl then
        let pasteLines := c.content.splitOn nl
        let lastIndex := pasteLines.length - 1
        let lines1 := buf1.lines.set cur.row (before ++ pasteLines.getD 0 [])
        let middles := (pasteLines.drop 1).dropLast
        let lines2 := lines1.take (cur.row + 1) ++ middles ++ lines1.drop (cur.row + 1)
        let lines3 := lines2.take (cur.row + lastIndex)
          ++ [pasteLines.getD lastIndex [] ++ after] ++ lines2.drop (cur.row + lastIndex)
        (({ buf1 with lines := lines3, modified := true },
          ⟨cur.row + lastIndex, (pasteLines.getD lastIndex []).length⟩), true)
      else
        let lines1 := buf1.lines.set cur.row (before ++ c.content ++ after)
        (({ buf1 with lines := lines1, modified := true },
          ⟨cur.row, cur.col + c.content.length⟩), true)

/-- `_pasteMultiCursor(buffer, cursor, selection)` (features/clipboard.js). -/
def ClipboardSt.pasteMultiCursor (c : ClipboardSt) (σ : SelSt) : SelSt × Bool :=
  if c.content.isEmpty then (σ, false)
  else
    let cursorRanges := σ.ranges.filter (fun r => r.isEmpty)
    if cursorRanges.isEmpty then
      let res := c.pasteSingleCursor σ.buffer σ.cursor
      ({ σ with buffer := res.1.1, cursor := res.1.2 }, res.2)
    else
      let textParts := c.prepareTextForDistribution cursorRanges.length
      σ.replaceRanges (fun range _ index =>
        if !range.isEmpty then none
        else some (.plain (textForCursorJS textParts index)))

/-- `_cutLinesAtCursors(selection, buffer)` (features/clipboard.js).  The
JS `[...new Set(rows)]` dedupe keeps first occurrences; the rows are
already sorted descending, so duplicates are adjacent and `List.dedup`
yields the same list. -/
def cutLinesAtCursors (σ : SelSt) : SelSt :=
  let cursorRows := (σ.ranges.filter (fun r => r.isEmpty)).map (fun r => r.head.row)
  let sortedRows := List.insertionSort (fun a b : Nat => b ≤ a) cursorRows
  let uniqueRows := sortedRows.dedup
  let buf1 := σ.buffer.saveToHistory
  let lines1 := uniqueRows.foldl
    (fun ls row => if row < ls.length then ls.eraseIdx row else ls) buf1.lines
  let lines2 := if lines1.isEmpty then [[]] else lines1
  let buf2 := { buf1 with lines := lines2, modified := true }
  let σ1 := SelSt.clear { σ with buffer := buf2 }
  let targetRow := min (uniqueRows.getD (uniqueRows.length - 1) 0) (lines2.length - 1)
  { σ1 with cursor := Cursor.clamp ⟨targetRow, 0⟩ buf2 }

/-! ### Invariants and the public-operation machine -/

/-- Sortedness of a range list, ascending by `(startRow, startCol)` of the
normalized bounds. -/
def SortedRanges (l : List SelectionRange) : Prop := l.Pairwise rangeLeP

instance : DecidablePred SortedRanges := fun l => by
  unfold SortedRanges; infer_instance

/-- The buffer's machine invariant: at least one line, only non-empty
history snapshots, and a history index inside `[-1, len - 1]`. -/
def BufInv (b : BufferSt) : Prop :=
  b.lines ≠ [] ∧ (∀ e ∈ b.history, e ≠ []) ∧
    -1 ≤ b.historyIndex ∧ b.historyIndex < (b.history.length : Int)

instance : DecidablePred BufInv := fun b => by
  unfold BufInv; infer_instance

/-- The `primaryIndex` invariant: `-1` exactly on the empty set, otherwise
a valid index. -/
def PrimaryInv (σ : SelSt) : Prop :=
  (σ.ranges = [] → σ.primaryIndex = -1) ∧
    (σ.ranges ≠ [] → 0 ≤ σ.primaryIndex ∧ σ.primaryIndex < (σ.ranges.length : Int))

instance : DecidablePred PrimaryInv := fun σ => by
  unfold PrimaryInv; infer_instance

/-- The public mutating operations of the `Selection` class. -/
inductive PubOp where
  | opStart
  | opClear
  | opToggle
  | opUpdate
  | opExtendTo (row col : Nat)
  | opSetRanges (rs : List SelectionRange) (pi : Int)
  | opAddRange (r : SelectionRange) (makePrimary : Bool)
  | opSelectLine (row : Nat)
  | opSelectWord
  | opSelectAll
  | opAddNext (fuel : Nat) (loop : Bool)
  | opReplaceRanges (cb : Callback)
  | opDelete
  | opDeleteBackward
  | opDeleteForward
  | opCollapse
  | opEnsurePrimary
  | opSetPrimary (i : Int)

/-- One public operation applied to the selection state. -/
def stepOp (σ : SelSt) : PubOp → SelSt
  | .opStart => σ.start
  | .opClear => σ.clear
  | .opToggle => σ.toggle
  | .opUpdate => σ.update
  | .opExtendTo row col => σ.extendTo row col
  | .opSetRanges rs pi => σ.setRanges rs pi
  | .opAddRange r mp => σ.addRange r mp
  | .opSelectLine row => σ.selectLine row
  | .opSelectWord => σ.selectWord.1
  | .opSelectAll => σ.selectAll
  | .opAddNext fuel loop => (σ.addNextOccurrence fuel loop).1
  | .opReplaceRanges cb => (σ.replaceRanges cb).1
  | .opDelete => σ.delete.1
  | .opDeleteBackward => σ.deleteBackward.1
  | .opDeleteForward => σ.deleteForward.1
  | .opCollapse => σ.collapseToPrimaryRange
  | .opEnsurePrimary => σ.ensurePrimaryRange
  | .opSetPrimary i => σ.setPrimaryRange i

/-- A sequence of public operations, left to right. -/
def runOps (σ : SelSt) : List PubOp → SelSt
  | [] => σ
  | op :: rest => runOps (stepOp σ op) rest

/-- Side condition excluded by the amended C8: `addRange` with
`makePrimary = false` on an empty set (it leaves `primaryIndex = -1` with a
non-empty range list). -/
def okOp (σ : SelSt) : PubOp → Prop
  | .opAddRange _ mp => mp = true ∨ σ.ranges ≠ []
  | _ => True

/-- `okOp` holding at every step of a run. -/
def runOk (σ : SelSt) : List PubOp → Prop
  | [] => True
  | op :: rest => okOp σ op ∧ runOk (stepOp σ op) rest

/-- The `new Selection(buffer, cursor)` initial (empty) state. -/
def initSel (buf : BufferSt) (cur : Cursor) : SelSt := ⟨buf, cur, [], -1⟩

/-! ### Flattened-content semantics for C2 -/

/-- Lexicographic order on positions. -/
def posLe (p q : Pos) : Prop := p.row < q.row ∨ (p.row = q.row ∧ p.col ≤ q.col)

instance : DecidableRel posLe := fun p q =>
  inferInstanceAs (Decidable (p.row < q.row ∨ (p.row = q.row ∧ p.col ≤ q.col)))

/-- Bounds that denote a real span of the given line list: normalized,
rows in range, columns within their lines. -/
def ValidBounds (lines : List Line) (b : Bounds) : Prop :=
  posLe b.startPos b.endPos ∧ b.endRow < lines.length ∧
    b.startCol ≤ (lines.getD b.startRow []).length ∧
    b.endCol ≤ (lines.getD b.endRow []).length

instance : ∀ lines b, Decidable (ValidBounds lines b) := fun lines b =>
  inferInstanceAs (Decidable (posLe b.startPos b.endPos ∧ b.endRow < lines.length ∧
    b.startCol ≤ (lines.getD b.startRow []).length ∧
    b.endCol ≤ (lines.getD b.endRow []).length))

/-- Target spans pairwise disjoint and ascending in action order:
each action's end does not exceed the next action's start. -/
def ChainActs (acts : List EditAction) : Prop :=
  acts.Chain' (fun a b => posLe a.bounds.endPos b.bounds.startPos)

/-- Executable check of `ChainActs`. -/
def chainActsB : List EditAction → Bool
  | [] => true
  | [_] => true
  | a :: b :: rest =>
    decide (posLe a.bounds.endPos b.bounds.startPos) && chainActsB (b :: rest)

instance : DecidablePred ChainActs := fun acts =>
  decidable_of_iff (chainActsB acts = true) (by
    induction acts with
    | nil => simp [chainActsB, ChainActs]
    | cons a rest ih =>
      cases rest with
      | nil => simp [chainActsB, ChainActs]
      | cons b rest' =>
        simp only [chainActsB, Bool.and_eq_true, decide_eq_true_eq]
        rw [ih]
        unfold ChainActs
        rw [List.chain'_cons])

/-- The flat offset of a position inside the newline-joined buffer text. -/
def flatPos (lines : List Line) (p : Pos) : Nat :=
  (((lines.take p.row).map (fun l => l.length + 1)).sum) + p.col

/-- Specification-side simultaneous replacement: every span `(a, b)` is a
flat offset interval of the original string `s`, the spans are ascending
and disjoint, and each is replaced by its text — all coordinates
interpreted against `s` itself. -/
def simReplace (s : List Char) : List (Nat × Nat × Line) → List Char
  | [] => s
  | (a, b, t) :: rest => s.take a ++ t ++ (simReplace s rest).drop b

/-- The flat spans of a list of actions, measured on the pre-call lines. -/
def flatSpans (lines : List Line) (acts : List EditAction) : List (Nat × Nat × Line) :=
  acts.map (fun a => (flatPos lines a.bounds.startPos, flatPos lines a.bounds.endPos, a.text))

/-- `L'` agrees with `L` strictly below the position `p`: the rows before
`p.row` coincide, row `p.row` still exists, its first `p.col` characters
coincide, and `p.col` is still within it. -/
def AgreeBelow (L L' : List Line) (p : Pos) : Prop :=
  L'.take p.row = L.take p.row ∧ p.row < L'.length ∧
    (L'.getD p.row []).take p.col = (L.getD p.row []).take p.col ∧
    p.col ≤ (L'.getD p.row []).length

/-! ### Concrete fixtures used by witnesses and counterexamples -/

/-- A two-character one-line buffer. -/
def bufW : BufferSt := ⟨[str "ab"], false, [], -1⟩

/-- A selection over `bufW` with one range covering the first character. -/
def selW : SelSt := ⟨bufW, ⟨0, 0⟩, [SelectionRange.fromPositions 0 0 0 1], 0⟩

/-- A callback replacing every range with `"X"`. -/
def cbX : Callback := fun _ _ _ => some (.plain (str "X"))

/-- The always-`null` callback. -/
def cbNone : Callback := fun _ _ _ => none

/-- The occurrence-search test buffer of the spec. -/
def bufOcc : BufferSt := ⟨[str "test foo test", str "test"], false, [], -1⟩

/-- Primary range covering the first `"test"` of `bufOcc`. -/
def selOcc : SelSt := ⟨bufOcc, ⟨0, 4⟩, [SelectionRange.fromPositions 0 0 0 4], 0⟩

/-- Clipboard holding `"x\n\nz"` (second line empty). -/
def clipXZ : ClipboardSt := ⟨str "x\n\nz", false⟩

/-- Three empty cursors at the starts of rows 0, 1, 2 of `["a","b","c"]`. -/
def selThree : SelSt :=
  ⟨⟨[str "a", str "b", str "c"], false, [], -1⟩, ⟨0, 0⟩,
    [SelectionRange.fromPositions 0 0 0 0, SelectionRange.fromPositions 1 0 1 0,
      SelectionRange.fromPositions 2 0 2 0], 2⟩

/-- A selection whose primary (first) range is skipped by `cbSkipFirst`
while the second range performs. -/
def selSkip : SelSt :=
  ⟨bufW, ⟨0, 0⟩,
    [SelectionRange.fromPositions 0 0 0 0, SelectionRange.fromPositions 0 1 0 2], 0⟩

/-- Callback skipping the range at index 0 and replacing the others. -/
def cbSkipFirst : Callback := fun _ _ i =>
  if i = 0 then none else some (.plain (str "X"))

/-- Two empty ranges at columns 5 and 8 of row 0, primary the latter
(reached by `setRanges` with its JS default primary). -/
def selTwo : SelSt :=
  (initSel bufW ⟨0, 1⟩).setRangesD
    [SelectionRange.fromPositions 0 5 0 5, SelectionRange.fromPositions 0 8 0 8]

/-- A callback whose explicit target bounds are pairwise disjoint but
descend while the ranges ascend: range at index 0 targets `[4,6)` of
`"abcdef"`, range at index 1 targets `[0,2)`. -/
def cbSwapTargets : Callback := fun _ _ i =>
  if i = 0 then some (.obj (some (str "X")) (some ⟨0, 4, 0, 6⟩))
  else some (.obj (some (str "Y")) (some ⟨0, 0, 0, 2⟩))

/-- Two ranges over one line `"abcdef"` for the C2 counterexample. -/
def selSwap : SelSt :=
  ⟨⟨[str "abcdef"], false, [], -1⟩, ⟨0, 0⟩,
    [SelectionRange.fromPositions 0 0 0 1, SelectionRange.fromPositions 0 3 0 4], 0⟩

/-- A callback replacing every range with the single letter `"Z"`. -/
def cbZ : Callback := fun _ _ _ => some (.plain (str "Z"))

/-- Two disjoint ascending single-character ranges over one line `"abcd"`. -/
def selC2W : SelSt :=
  ⟨⟨[str "abcd"], false, [], -1⟩, ⟨0, 0⟩,
    [SelectionRange.fromPositions 0 0 0 1, SelectionRange.fromPositions 0 2 0 3], 0⟩

/-! ## Supporting lemmas -/

/-- The stable sort permutes the range list. -/
theorem sortRangesList_perm (l : List SelectionRange) : (sortRangesList l).Perm l :=
  List.perm_insertionSort _ l

/-- Sorting preserves length. -/
theorem sortRangesList_length (l : List SelectionRange) :
    (sortRangesList l).length = l.length :=
  (sortRangesList_perm l).length_eq

/-- Sorting preserves emptiness. -/
theorem sortRangesList_isEmpty (l : List SelectionRange) :
    (sortRangesList l).isEmpty = l.isEmpty := by
  have hlen := sortRangesList_length l
  rcases l with _ | ⟨a, l⟩
  · rfl
  · rcases h : sortRangesList (a :: l) with _ | ⟨b, m⟩
    · rw [h] at hlen; simp at hlen
    · rfl

/-- `setRanges` never touches the buffer. -/
theorem setRanges_buffer (σ : SelSt) (rs : List SelectionRange) (pi : Int) :
    (σ.setRanges rs pi).buffer = σ.buffer := by
  unfold SelSt.setRanges
  dsimp only
  split <;> rfl

/-- `replaceRanges` returns `true` exactly when the selection is active and
some action modifies. -/
theorem replaceRanges_snd_true_iff (σ : SelSt) (cb : Callback) :
    (σ.replaceRanges cb).2 = true ↔
      σ.active = true ∧ (replaceActions σ cb).any (·.perform) = true := by
  by_cases h1 : σ.active = true
  · have h2 : (sortRangesList σ.ranges).isEmpty = false := by
      rw [sortRangesList_isEmpty]
      simpa [SelSt.active] using h1
    by_cases h3 : (replaceActions σ cb).any (·.perform) = true
    · simp [SelSt.replaceRanges, h1, h2, h3]
    · simp [SelSt.replaceRanges, h1, h2, h3]
  · simp [SelSt.replaceRanges, h1]

/-- The three no-op branches of `replaceRanges` leave everything unchanged. -/
theorem replaceRanges_of_any_false (σ : SelSt) (cb : Callback)
    (h : (replaceActions σ cb).any (·.perform) = false) :
    σ.replaceRanges cb = (σ, false) := by
  by_cases h1 : σ.active = true
  · have h2 : (sortRangesList σ.ranges).isEmpty = false := by
      rw [sortRangesList_isEmpty]
      simpa [SelSt.active] using h1
    simp [SelSt.replaceRanges, h1, h2, h]
  · simp [SelSt.replaceRanges, h1]

/-- On the modifying path, `replaceRanges` produces exactly the
`setRanges`-assembled state (with the cursor moved to the new primary). -/
theorem replaceRanges_true_eq (σ : SelSt) (cb : Callback)
    (hact : σ.active = true)
    (hany : (replaceActions σ cb).any (·.perform) = true) :
    σ.replaceRanges cb =
      (let σ1 := replaceAssembled σ cb
      match σ1.primaryRange with
      | some primary =>
        { σ1 with cursor := Cursor.clamp ⟨primary.head.row, primary.head.col⟩ σ1.buffer }
      | none => σ1, true) := by
  have h2 : (sortRangesList σ.ranges).isEmpty = false := by
    rw [sortRangesList_isEmpty]
    simpa [SelSt.active] using hact
  simp [SelSt.replaceRanges, hact, h2, hany]

/-- On the modifying path the result's buffer is `replaceBufferAfter`. -/
theorem replaceRanges_fst_buffer (σ : SelSt) (cb : Callback)
    (h : (σ.replaceRanges cb).2 = true) :
    (σ.replaceRanges cb).1.buffer = replaceBufferAfter σ cb := by
  obtain ⟨hact, hany⟩ := (replaceRanges_snd_true_iff σ cb).1 h
  rw [replaceRanges_true_eq σ cb hact hany]
  have hb : (replaceAssembled σ cb).buffer = replaceBufferAfter σ cb := by
    unfold replaceAssembled
    rw [setRanges_buffer]
  rcases hp : (replaceAssembled σ cb).primaryRange with _ | pr <;> simp [hp, hb]

/-- An always-`null` callback yields a non-modifying action. -/
theorem computeAction_none (cb : Callback) (r : SelectionRange) (i : Nat)
    (h : cb r r.getBounds i = none) :
    computeAction cb r i = ⟨false, r.getBounds, []⟩ := by
  unfold computeAction
  dsimp only
  rw [h]

/-- An always-`null` callback builds only non-modifying actions. -/
theorem replaceActions_no_perform (σ : SelSt) (cb : Callback)
    (h : ∀ r b i, cb r b i = none) :
    (replaceActions σ cb).any (·.perform) = false := by
  rw [List.any_eq_false]
  intro a ha
  unfold replaceActions at ha
  rw [List.mem_map] at ha
  obtain ⟨⟨i, r⟩, _, rfl⟩ := ha
  rw [computeAction_none cb r i (h r r.getBounds i)]
  simp

/-- An inactive selection has no ranges. -/
theorem ranges_nil_of_not_active (σ : SelSt) (h : ¬ σ.active = true) : σ.ranges = [] := by
  cases hr : σ.ranges with
  | nil => rfl
  | cons a l => exact absurd (by simp [SelSt.active, hr]) h

/-- The sort used by every re-sorting mutator produces a sorted list. -/
theorem sortRangesList_sorted (l : List SelectionRange) :
    SortedRanges (sortRangesList l) :=
  List.sorted_insertionSort rangeLeP l

/-- `setRanges` always leaves a sorted range list. -/
theorem setRanges_ranges_sorted (σ : SelSt) (rs : List SelectionRange) (pi : Int) :
    SortedRanges (σ.setRanges rs pi).ranges := by
  unfold SelSt.setRanges
  dsimp only
  split
  · next h =>
    rw [List.isEmpty_iff] at h
    simp [h, SortedRanges]
  · exact sortRangesList_sorted _

/-- `setRangesD` always leaves a sorted range list. -/
theorem setRangesD_ranges_sorted (σ : SelSt) (rs : List SelectionRange) :
    SortedRanges (σ.setRangesD rs).ranges :=
  setRanges_ranges_sorted σ rs _

/-- `selectWord` either fails with a cleared range list or succeeds with a
sorted one. -/
theorem selectWord_shape (σ : SelSt) :
    (σ.selectWord.2 = false ∧ σ.selectWord.1.ranges = []) ∨
    (σ.selectWord.2 = true ∧ SortedRanges σ.selectWord.1.ranges) := by
  unfold SelSt.selectWord
  dsimp only
  repeat' split
  all_goals
    first
      | exact Or.inl ⟨rfl, rfl⟩
      | exact Or.inr ⟨rfl, setRangesD_ranges_sorted σ _⟩

/-- `selectWord` always leaves a sorted range list. -/
theorem selectWord_ranges_sorted (σ : SelSt) : SortedRanges σ.selectWord.1.ranges := by
  rcases selectWord_shape σ with ⟨_, h⟩ | ⟨_, h⟩
  · rw [h]; exact List.Pairwise.nil
  · exact h

/-- `delete` always leaves a sorted (indeed empty or unchanged-empty)
range list. -/
theorem delete_ranges_sorted (σ : SelSt) : SortedRanges σ.delete.1.ranges := by
  unfold SelSt.delete
  dsimp only
  split
  · next h =>
    simp [SortedRanges, ranges_nil_of_not_active σ h]
  · split
    · simp [SelSt.clear, SortedRanges]
    · simp [SelSt.clear, SortedRanges]

/-- A `false` result from `replaceRanges` means nothing changed at all. -/
theorem replaceRanges_of_snd_false (σ : SelSt) (cb : Callback)
    (h : (σ.replaceRanges cb).2 = false) : σ.replaceRanges cb = (σ, false) := by
  cases hact : σ.active with
  | false => simp [SelSt.replaceRanges, hact]
  | true =>
    cases hany : (replaceActions σ cb).any (·.perform) with
    | false => exact replaceRanges_of_any_false σ cb hany
    | true =>
      rw [(replaceRanges_snd_true_iff σ cb).2 ⟨hact, hany⟩] at h
      cases h

/-- On the modifying path the result's ranges are those of the assembled
`setRanges` state. -/
theorem replaceRanges_fst_ranges (σ : SelSt) (cb : Callback)
    (h : (σ.replaceRanges cb).2 = true) :
    (σ.replaceRanges cb).1.ranges = (replaceAssembled σ cb).ranges := by
  obtain ⟨hact, hany⟩ := (replaceRanges_snd_true_iff σ cb).1 h
  rw [replaceRanges_true_eq σ cb hact hany]
  rcases hp : (replaceAssembled σ cb).primaryRange with _ | pr <;> simp [hp]

/-- On the modifying path the result's primary index is that of the
assembled `setRanges` state. -/
theorem replaceRanges_fst_primaryIndex (σ : SelSt) (cb : Callback)
    (h : (σ.replaceRanges cb).2 = true) :
    (σ.replaceRanges cb).1.primaryIndex = (replaceAssembled σ cb).primaryIndex := by
  obtain ⟨hact, hany⟩ := (replaceRanges_snd_true_iff σ cb).1 h
  rw [replaceRanges_true_eq σ cb hact hany]
  rcases hp : (replaceAssembled σ cb).primaryRange with _ | pr <;> simp [hp]

/-- `addNextOccurrence` either fails leaving the ranges untouched or
succeeds leaving a sorted range list. -/
theorem addNextOccurrence_shape (fuel : Nat) (σ : SelSt) (loop : Bool) :
    ((σ.addNextOccurrence fuel loop).2 = false ∧
      (σ.addNextOccurrence fuel loop).1.ranges = σ.ranges) ∨
    ((σ.addNextOccurrence fuel loop).2 = true ∧
      SortedRanges (σ.addNextOccurrence fuel loop).1.ranges) := by
  unfold SelSt.addNextOccurrence
  split
  · next h =>
    have hr := ranges_nil_of_not_active σ h
    rcases selectWord_shape σ with ⟨h1, h2⟩ | ⟨h1, h2⟩
    · exact Or.inl ⟨h1, by rw [h2, hr]⟩
    · exact Or.inr ⟨h1, h2⟩
  · split
    · exact Or.inl ⟨rfl, rfl⟩
    · dsimp only
      split
      · exact Or.inl ⟨rfl, rfl⟩
      · split
        · exact Or.inl ⟨rfl, rfl⟩
        · exact Or.inr ⟨rfl, sortRangesList_sorted _⟩

/-- `PrimaryInv` only looks at the ranges and the primary index. -/
theorem PrimaryInv_transfer (X Y : SelSt) (h1 : X.ranges = Y.ranges)
    (h2 : X.primaryIndex = Y.primaryIndex) (h : PrimaryInv Y) : PrimaryInv X := by
  unfold PrimaryInv at *
  rw [h1, h2]
  exact h

/-- `clear` re-establishes the primary-index invariant. -/
theorem clear_inv (σ : SelSt) : PrimaryInv σ.clear :=
  ⟨fun _ => rfl, fun h => absurd rfl h⟩

/-- `setRanges` always establishes the primary-index invariant. -/
theorem setRanges_inv (σ : SelSt) (rs : List SelectionRange) (pi : Int) :
    PrimaryInv (σ.setRanges rs pi) := by
  unfold SelSt.setRanges
  dsimp only
  split
  · next h =>
    rw [List.isEmpty_iff] at h
    exact ⟨fun _ => rfl, fun hne => absurd h hne⟩
  · next h =>
    have hne : rs.map SelectionRange.clone ≠ [] := fun hcon => h (by simp [hcon])
    have hlen := sortRangesList_length (rs.map SelectionRange.clone)
    have hpos : 0 < (rs.map SelectionRange.clone).length := List.length_pos.2 hne
    constructor
    · intro hr
      dsimp only at hr
      rw [hr] at hlen
      simp only [List.length_nil] at hlen
      omega
    · intro _
      dsimp only
      split
      · constructor <;> omega
      · next hc =>
        push_neg at hc
        exact hc

/-- A present primary range means the index is in bounds. -/
theorem primaryRange_some_bounds (σ : SelSt) (p : SelectionRange)
    (h : σ.primaryRange = some p) :
    0 ≤ σ.primaryIndex ∧ σ.primaryIndex < (σ.ranges.length : Int) := by
  unfold SelSt.primaryRange at h
  split at h
  · cases h
  · next hc =>
    push_neg at hc
    exact hc

/-- A successful `findIdx?` returns an in-range index. -/
theorem findIdx?_some_lt {α : Type} (p : α → Bool) (l : List α) (i : Nat)
    (h : l.findIdx? p = some i) : i < l.length :=
  (List.findIdx?_eq_some_iff_findIdx_eq.mp h).1

/-- `findIdx?` with an equality test succeeds on any member. -/
theorem findIdx?_beq_some_of_mem {α : Type} [DecidableEq α] (l : List α) (a : α)
    (h : a ∈ l) : ∃ i, l.findIdx? (fun x => x == a) = some i := by
  cases hf : l.findIdx? (fun x => x == a) with
  | some i => exact ⟨i, rfl⟩
  | none =>
    rw [List.findIdx?_eq_none_iff] at hf
    have := hf a h
    simp at this

/-- `selectWord` preserves the primary-index invariant. -/
theorem selectWord_inv (σ : SelSt) : PrimaryInv σ.selectWord.1 := by
  unfold SelSt.selectWord
  dsimp only
  repeat' split
  all_goals
    first
      | exact clear_inv σ
      | exact setRanges_inv σ _ _

/-- `update` preserves the primary-index invariant. -/
theorem update_inv (σ : SelSt) (hσ : PrimaryInv σ) : PrimaryInv σ.update := by
  unfold SelSt.update
  split
  · exact hσ
  · next p hp =>
    have hb := primaryRange_some_bounds σ p hp
    constructor
    · intro hr
      dsimp only at hr
      have h0 := congrArg List.length hr
      rw [List.length_set] at h0
      simp only [List.length_nil] at h0
      exfalso
      omega
    · intro _
      dsimp only
      rw [List.length_set]
      exact hb

/-- `extendTo` preserves the primary-index invariant. -/
theorem extendTo_inv (σ : SelSt) (row col : Nat) (hσ : PrimaryInv σ) :
    PrimaryInv (σ.extendTo row col) := by
  unfold SelSt.extendTo
  split
  · exact setRanges_inv σ _ _
  · next p hp =>
    have hb := primaryRange_some_bounds σ p hp
    constructor
    · intro hr
      dsimp only at hr
      have h0 := congrArg List.length hr
      rw [List.length_set] at h0
      simp only [List.length_nil] at h0
      exfalso
      omega
    · intro _
      dsimp only
      rw [List.length_set]
      exact hb

/-- `addRange` preserves the primary-index invariant as long as it is not
called with `makePrimary = false` on an empty set. -/
theorem addRange_inv (σ : SelSt) (r : SelectionRange) (mp : Bool)
    (hok : mp = true ∨ σ.ranges ≠ []) (hσ : PrimaryInv σ) :
    PrimaryInv (σ.addRange r mp) := by
  unfold SelSt.addRange
  dsimp only
  have hlen : (sortRangesList (σ.ranges ++ [r.clone])).length = σ.ranges.length + 1 := by
    rw [sortRangesList_length]
    simp
  cases mp with
  | true =>
    have hmem : r.clone ∈ sortRangesList (σ.ranges ++ [r.clone]) := by
      unfold sortRangesList
      rw [List.mem_insertionSort]
      simp
    obtain ⟨i, hi⟩ := findIdx?_beq_some_of_mem _ _ hmem
    have hilt := findIdx?_some_lt _ _ _ hi
    rw [if_pos rfl, hi]
    constructor
    · intro hr
      dsimp only at hr
      rw [hr] at hlen
      simp at hlen
    · intro _
      dsimp only
      rw [hlen] at hilt
      simp
      omega
  | false =>
    have hne : σ.ranges ≠ [] := hok.resolve_left (by simp)
    have hb := hσ.2 hne
    rw [if_neg (by simp)]
    constructor
    · intro hr
      dsimp only at hr
      rw [hr] at hlen
      simp at hlen
    · intro _
      dsimp only
      rw [hlen]
      omega

/-- `setPrimaryRange` preserves the primary-index invariant. -/
theorem setPrimaryRange_inv (σ : SelSt) (i : Int) (hσ : PrimaryInv σ) :
    PrimaryInv (σ.setPrimaryRange i) := by
  unfold SelSt.setPrimaryRange
  split
  · exact hσ
  · next hc =>
    push_neg at hc
    constructor
    · intro hr
      exfalso
      rw [hr] at hc
      simp at hc
      omega
    · intro _
      exact hc

/-- `delete` preserves the primary-index invariant. -/
theorem delete_inv (σ : SelSt) (hσ : PrimaryInv σ) : PrimaryInv σ.delete.1 := by
  unfold SelSt.delete
  dsimp only
  split
  · exact hσ
  · split
    · exact clear_inv σ
    · exact ⟨fun _ => rfl, fun h => absurd rfl h⟩

/-- `replaceRanges` preserves the primary-index invariant. -/
theorem replaceRanges_inv (σ : SelSt) (cb : Callback) (hσ : PrimaryInv σ) :
    PrimaryInv (σ.replaceRanges cb).1 := by
  cases hb : (σ.replaceRanges cb).2 with
  | false =>
    rw [replaceRanges_of_snd_false σ cb hb]
    exact hσ
  | true =>
    exact PrimaryInv_transfer _ _ (replaceRanges_fst_ranges σ cb hb)
      (replaceRanges_fst_primaryIndex σ cb hb) (setRanges_inv _ _ _)

/-- The mutation of a successful `addNextOccurrence` establishes the
primary-index invariant. -/
theorem addOccurrenceSuccess_inv (σ : SelSt) (p : Pos) (n : Nat) :
    PrimaryInv (addOccurrenceSuccess σ p n) := by
  unfold addOccurrenceSuccess
  dsimp only
  have hlen := sortRangesList_length
    (σ.ranges ++ [SelectionRange.fromPositions p.row p.col p.row (p.col + n)])
  have hmem : SelectionRange.fromPositions p.row p.col p.row (p.col + n) ∈
      sortRangesList (σ.ranges ++ [SelectionRange.fromPositions p.row p.col p.row (p.col + n)]) := by
    unfold sortRangesList
    rw [List.mem_insertionSort]
    simp
  obtain ⟨i, hi⟩ := findIdx?_beq_some_of_mem _ _ hmem
  have hilt := findIdx?_some_lt _ _ _ hi
  rw [hi]
  constructor
  · intro hr
    dsimp only at hr
    rw [hr] at hmem
    cases hmem
  · intro _
    dsimp only
    rw [hlen] at hilt
    simp only [List.length_append, List.length_cons, List.length_nil] at hilt
    constructor
    · omega
    · rw [hlen]
      simp only [List.length_append, List.length_cons, List.length_nil]
      omega

/-- `addNextOccurrence` preserves the primary-index invariant. -/
theorem addNextOccurrence_inv (fuel : Nat) (σ : SelSt) (loop : Bool)
    (hσ : PrimaryInv σ) : PrimaryInv (σ.addNextOccurrence fuel loop).1 := by
  unfold SelSt.addNextOccurrence
  split
  · exact selectWord_inv σ
  · split
    · exact hσ
    · dsimp only
      split
      · exact hσ
      · split
        · exact hσ
        · exact addOccurrenceSuccess_inv σ _ _

/-- Every allowed public operation preserves the primary-index invariant. -/
theorem stepOp_inv (σ : SelSt) (op : PubOp) (hσ : PrimaryInv σ)
    (hok : okOp σ op) : PrimaryInv (stepOp σ op) := by
  cases op with
  | opStart => exact setRanges_inv σ _ _
  | opClear => exact clear_inv σ
  | opToggle =>
    show PrimaryInv σ.toggle
    unfold SelSt.toggle
    split
    · exact clear_inv σ
    · exact setRanges_inv σ _ _
  | opUpdate => exact update_inv σ hσ
  | opExtendTo row col => exact extendTo_inv σ row col hσ
  | opSetRanges rs pi => exact setRanges_inv σ rs pi
  | opAddRange r mp => exact addRange_inv σ r mp hok hσ
  | opSelectLine row => exact setRanges_inv σ _ _
  | opSelectWord => exact selectWord_inv σ
  | opSelectAll => exact setRanges_inv σ _ _
  | opAddNext fuel loop => exact addNextOccurrence_inv fuel σ loop hσ
  | opReplaceRanges cb => exact replaceRanges_inv σ cb hσ
  | opDelete => exact delete_inv σ hσ
  | opDeleteBackward =>
    show PrimaryInv σ.deleteBackward.1
    unfold SelSt.deleteBackward
    split
    · exact hσ
    · exact replaceRanges_inv σ _ hσ
  | opDeleteForward =>
    show PrimaryInv σ.deleteForward.1
    unfold SelSt.deleteForward
    split
    · exact hσ
    · exact replaceRanges_inv σ _ hσ
  | opCollapse =>
    show PrimaryInv σ.collapseToPrimaryRange
    unfold SelSt.collapseToPrimaryRange
    split
    · exact clear_inv σ
    · exact setRanges_inv σ _ _
  | opEnsurePrimary =>
    show PrimaryInv σ.ensurePrimaryRange
    unfold SelSt.ensurePrimaryRange
    split
    · exact hσ
    · exact setRanges_inv σ _ _
  | opSetPrimary i => exact setPrimaryRange_inv σ i hσ

/-- The invariant is preserved along any allowed run. -/
theorem runOps_inv (ops : List PubOp) : ∀ σ : SelSt, PrimaryInv σ →
    runOk σ ops → PrimaryInv (runOps σ ops) := by
  induction ops with
  | nil => exact fun σ h _ => h
  | cons op rest ih => exact fun σ h hok => ih _ (stepOp_inv σ op h hok.1) hok.2

/-- `set` never empties a list. -/
theorem set_ne_nil (l : List Line) (i : Nat) (x : Line) (h : l ≠ []) :
    l.set i x ≠ [] := by
  intro hcon
  have := List.length_set l i x
  rw [hcon] at this
  exact h (List.length_eq_zero.mp this.symm)

/-- A positive-length prefix of a non-empty list is non-empty. -/
theorem take_ne_nil_of_ne_nil (l : List Line) (n : Nat) (h : l ≠ []) (h2 : n ≠ 0) :
    l.take n ≠ [] := by
  cases l with
  | nil => exact absurd rfl h
  | cons a t =>
    cases n with
    | zero => exact absurd rfl h2
    | succ m => simp

/-- `_deleteBounds` never empties the buffer. -/
theorem deleteBounds_ne_nil (lines : List Line) (b : Bounds) (h : lines ≠ []) :
    deleteBounds lines b ≠ [] := by
  unfold deleteBounds
  dsimp only
  split
  · exact set_ne_nil _ _ _ h
  · intro hcon
    rcases List.append_eq_nil.mp hcon with ⟨h1, _⟩
    exact take_ne_nil_of_ne_nil _ _ (set_ne_nil _ _ _ h) (Nat.succ_ne_zero _) h1

/-- `padTo` never empties the buffer. -/
theorem padTo_ne_nil (lines : List Line) (row : Nat) (h : lines ≠ []) :
    BufferSt.padTo lines row ≠ [] := by
  unfold BufferSt.padTo
  intro hcon
  exact h (List.append_eq_nil.mp hcon).1

/-- `_insertTextAt` never empties the buffer. -/
theorem insertTextAt_ne_nil (lines : List Line) (row col : Nat) (text : Line)
    (h : lines ≠ []) : (insertTextAt lines row col text).1 ≠ [] := by
  unfold insertTextAt
  dsimp only
  split
  · exact h
  · split
    · exact set_ne_nil _ _ _ (padTo_ne_nil lines row h)
    · apply set_ne_nil
      intro hcon
      rcases List.append_eq_nil.mp hcon with ⟨h1, _⟩
      rcases List.append_eq_nil.mp h1 with ⟨h2, _⟩
      exact take_ne_nil_of_ne_nil _ _ (set_ne_nil _ _ _ (padTo_ne_nil lines row h))
        (Nat.succ_ne_zero _) h2

/-- One descending-loop action never empties the buffer. -/
theorem applyOneAction_ne_nil (lines : List Line) (a : EditAction)
    (h : lines ≠ []) : (applyOneAction lines a).1 ≠ [] := by
  unfold applyOneAction
  dsimp only
  apply insertTextAt_ne_nil
  split
  · exact h
  · exact deleteBounds_ne_nil _ _ h

/-- The whole descending loop never empties the buffer. -/
theorem applyActionsDesc_ne_nil (acts : List EditAction) (lines : List Line)
    (h : lines ≠ []) : (applyActionsDesc acts lines).1 ≠ [] := by
  induction acts generalizing lines with
  | nil => exact h
  | cons a rest ih =>
    unfold applyActionsDesc
    dsimp only
    split
    · exact applyOneAction_ne_nil _ _ (ih lines h)
    · exact ih lines h

/-- `saveToHistory` establishes the buffer invariant whenever the lines
are non-empty and all previous snapshots are non-empty. -/
theorem saveToHistory_inv (b : BufferSt) (hl : b.lines ≠ [])
    (hh : ∀ e ∈ b.history, e ≠ []) : BufInv b.saveToHistory := by
  unfold BufferSt.saveToHistory BufInv
  dsimp only
  set hist0 := (if b.historyIndex < (b.history.length : Int) - 1 then
      b.history.take (b.historyIndex + 1).toNat else b.history) with hh0def
  have hh0 : ∀ e ∈ hist0, e ≠ [] := by
    rw [hh0def]
    split
    · exact fun e he => hh e (List.mem_of_mem_take he)
    · exact hh
  refine ⟨hl, ?_, ?_, ?_⟩
  · intro e he
    split at he
    · rcases List.mem_append.mp (List.mem_of_mem_drop he) with h1 | h1
      · exact hh0 e h1
      · rw [List.mem_singleton.mp h1]; exact hl
    · rcases List.mem_append.mp he with h1 | h1
      · exact hh0 e h1
      · rw [List.mem_singleton.mp h1]; exact hl
  · split <;> omega
  · split <;> omega

/-- Replacing the lines of an invariant-satisfying buffer with any
non-empty list (and setting `modified`) keeps the invariant. -/
theorem BufInv_set_lines (b : BufferSt) (lines : List Line) (h : BufInv b)
    (hl : lines ≠ []) : BufInv { b with lines := lines, modified := true } :=
  ⟨hl, h.2.1, h.2.2.1, h.2.2.2⟩

/-- `insertChar` preserves the buffer invariant. -/
theorem insertChar_inv (b : BufferSt) (row col : Nat) (ch : Line)
    (h : BufInv b) : BufInv (b.insertChar row col ch) := by
  unfold BufferSt.insertChar
  exact saveToHistory_inv _
    (set_ne_nil _ _ _ (padTo_ne_nil _ _ h.1)) h.2.1

/-- `deleteChar` preserves the buffer invariant. -/
theorem deleteChar_inv (b : BufferSt) (row col : Nat) (h : BufInv b) :
    BufInv (b.deleteChar row col).1 := by
  unfold BufferSt.deleteChar
  dsimp only
  split
  · exact h
  · split
    · exact saveToHistory_inv _ (set_ne_nil _ _ _ h.1) h.2.1
    · split
      · next hrow _ =>
        dsimp only
        refine saveToHistory_inv _ ?_ h.2.1
        intro hcon
        dsimp only at hcon
        have hlen := List.length_eraseIdx (b.lines.set (row - 1)
          (b.lines.getD (row - 1) [] ++ b.lines.getD row [])) row
        rw [hcon] at hlen
        rw [List.length_set] at hlen
        simp only [List.length_nil] at hlen
        have hrl : ¬ row ≥ b.lines.length := by assumption
        push_neg at hrl
        split at hlen <;> omega
      · exact h

/-- `insertLine` preserves the buffer invariant. -/
theorem insertLine_inv (b : BufferSt) (row col : Nat) (h : BufInv b) :
    BufInv (b.insertLine row col) := by
  unfold BufferSt.insertLine
  dsimp only
  refine saveToHistory_inv _ ?_ h.2.1
  intro hcon
  dsimp only at hcon
  rcases List.append_eq_nil.mp hcon with ⟨h1, _⟩
  rcases List.append_eq_nil.mp h1 with ⟨_, h3⟩
  cases h3

/-- `undo` preserves the buffer invariant. -/
theorem undo_inv (b : BufferSt) (h : BufInv b) : BufInv b.undo.1 := by
  unfold BufferSt.undo
  dsimp only
  split
  · next hgt =>
    dsimp only
    obtain ⟨hl, hh, hlo, hhi⟩ := h
    have hi : (b.historyIndex - 1).toNat < b.history.length := by omega
    refine ⟨?_, hh, by dsimp only; omega, by dsimp only; omega⟩
    rw [List.getD_eq_getElem b.history [] hi]
    exact hh _ (List.getElem_mem hi)
  · exact h

/-- `redo` preserves the buffer invariant. -/
theorem redo_inv (b : BufferSt) (h : BufInv b) : BufInv b.redo.1 := by
  unfold BufferSt.redo
  dsimp only
  split
  · next hlt =>
    dsimp only
    obtain ⟨hl, hh, hlo, hhi⟩ := h
    have hi : (b.historyIndex + 1).toNat < b.history.length := by omega
    refine ⟨?_, hh, by dsimp only; omega, by dsimp only; omega⟩
    rw [List.getD_eq_getElem b.history [] hi]
    exact hh _ (List.getElem_mem hi)
  · exact h

/-- `loadFile`'s success path establishes the buffer invariant. -/
theorem loadFileContent_inv (b : BufferSt) (content : Line) :
    BufInv (b.loadFileContent content) := by
  unfold BufferSt.loadFileContent BufInv
  dsimp only
  refine ⟨?_, by simp, by omega, by simp⟩
  split
  · simp
  · assumption

/-- `Selection.delete` preserves the buffer invariant. -/
theorem selDelete_buf_inv (σ : SelSt) (h : BufInv σ.buffer) :
    BufInv σ.delete.1.buffer := by
  unfold SelSt.delete
  dsimp only
  split
  · exact h
  · split
    · exact h
    · apply BufInv_set_lines _ _ (saveToHistory_inv _ h.1 h.2.1)
      have : ∀ (rs : List SelectionRange) (ls : List Line), ls ≠ [] →
          rs.foldr (fun r ls2 => deleteBounds ls2 r.getBounds) ls ≠ [] := by
        intro rs
        induction rs with
        | nil => exact fun ls hl => hl
        | cons r rest ih => exact fun ls hl => deleteBounds_ne_nil _ _ (ih ls hl)
      exact this _ _ (by
        unfold BufferSt.saveToHistory
        dsimp only
        exact h.1)

/-- `replaceRanges` preserves the buffer invariant. -/
theorem replaceRanges_buf_inv (σ : SelSt) (cb : Callback) (h : BufInv σ.buffer) :
    BufInv (σ.replaceRanges cb).1.buffer := by
  cases hb : (σ.replaceRanges cb).2 with
  | false =>
    rw [replaceRanges_of_snd_false σ cb hb]
    exact h
  | true =>
    rw [replaceRanges_fst_buffer σ cb hb]
    unfold replaceBufferAfter
    dsimp only
    apply BufInv_set_lines _ _ (saveToHistory_inv _ h.1 h.2.1)
    apply applyActionsDesc_ne_nil
    unfold BufferSt.saveToHistory
    dsimp only
    exact h.1

/-- The multi-row cut preserves the buffer invariant. -/
theorem cutLinesAtCursors_buf_inv (σ : SelSt) (h : BufInv σ.buffer) :
    BufInv (cutLinesAtCursors σ).buffer := by
  unfold cutLinesAtCursors
  dsimp only
  apply BufInv_set_lines _ _ (saveToHistory_inv _ h.1 h.2.1)
  split
  · simp
  · next hne => exact fun hcon => hne (by rw [hcon]; rfl)

/-- `clone` maps are identities in the value model. -/
theorem map_clone_id (rs : List SelectionRange) :
    rs.map SelectionRange.clone = rs :=
  List.map_id' rs

/-- `setRanges` stores the (stably) sorted input ranges. -/
theorem setRanges_ranges_eq (σ : SelSt) (rs : List SelectionRange) (pi : Int) :
    (σ.setRanges rs pi).ranges = sortRangesList rs := by
  unfold SelSt.setRanges
  dsimp only
  rw [map_clone_id]
  split
  · next h =>
    rw [List.isEmpty_iff] at h
    rw [h]
    rfl
  · rfl

/-- When the requested primary index is already valid, `setRanges` keeps it. -/
theorem setRanges_primaryIndex_of_valid (σ : SelSt) (rs : List SelectionRange)
    (pi : Int) (h0 : 0 ≤ pi) (h1 : pi < (rs.length : Int)) :
    (σ.setRanges rs pi).primaryIndex = pi := by
  unfold SelSt.setRanges
  dsimp only
  rw [map_clone_id]
  have hlen := sortRangesList_length rs
  split
  · next h =>
    rw [List.isEmpty_iff] at h
    rw [h] at h1
    simp at h1
    omega
  · dsimp only
    rw [if_neg (by rw [hlen]; omega)]

/-- `findIdx?` succeeds whenever some member satisfies the test. -/
theorem findIdx?_some_of_exists {α : Type} (p : α → Bool) (l : List α)
    (hx : ∃ x ∈ l, p x = true) : ∃ i, l.findIdx? p = some i := by
  cases hf : l.findIdx? p with
  | some i => exact ⟨i, rfl⟩
  | none =>
    rw [List.findIdx?_eq_none_iff] at hf
    obtain ⟨x, hm, hp⟩ := hx
    rw [hf x hm] at hp
    cases hp

/-- The present primary range is a member of the range list. -/
theorem primaryRange_mem (σ : SelSt) (p : SelectionRange)
    (h : σ.primaryRange = some p) : p ∈ σ.ranges := by
  unfold SelSt.primaryRange at h
  split at h
  · cases h
  · next hc =>
    push_neg at hc
    have hlt : σ.primaryIndex.toNat < σ.ranges.length := by omega
    rw [List.getD_eq_getElem _ _ hlt] at h
    injection h with h2
    rw [← h2]
    exact List.getElem_mem hlt

/-- The descending loop returns one `newPosition` per action. -/
theorem applyActionsDesc_snd_length (acts : List EditAction) (lines : List Line) :
    (applyActionsDesc acts lines).2.length = acts.length := by
  induction acts generalizing lines with
  | nil => rfl
  | cons a rest ih =>
    unfold applyActionsDesc
    dsimp only
    split <;> simp [ih]

/-- One action per range. -/
theorem replaceActions_length (σ : SelSt) (cb : Callback) :
    (replaceActions σ cb).length = σ.ranges.length := by
  unfold replaceActions
  rw [List.length_map, List.enum_length, sortRangesList_length]

/-- One new collapsed range per range. -/
theorem replaceNewRanges_length (σ : SelSt) (cb : Callback) :
    (replaceNewRanges σ cb).length = σ.ranges.length := by
  unfold replaceNewRanges
  rw [List.length_map, applyActionsDesc_snd_length, replaceActions_length]

/-- Every new range built by `replaceRanges` is collapsed. -/
theorem replaceNewRanges_isEmpty (σ : SelSt) (cb : Callback) :
    ∀ r ∈ replaceNewRanges σ cb, r.isEmpty = true := by
  intro r hr
  unfold replaceNewRanges at hr
  rw [List.mem_map] at hr
  obtain ⟨p, _, rfl⟩ := hr
  simp [SelectionRange.isEmpty]

/-- `split` never yields an empty array. -/
theorem splitOn_ne_nil_line (c : Char) (l : Line) : l.splitOn c ≠ [] :=
  List.splitOnP_ne_nil _ l

/-- `x || ""` is `x` for JS strings. -/
theorem jsOrLine_nil (x : Line) : jsOrLine x [] = x := by
  unfold jsOrLine
  split
  · next h => exact (List.isEmpty_iff.mp h).symm
  · rfl

/-- A string without newlines splits into itself. -/
theorem splitOn_eq_single_of_not_contains (l : Line) (h : l.contains nl = false) :
    l.splitOn nl = [l] := by
  simp only [List.elem_eq_mem, decide_eq_false_iff_not] at h
  apply List.splitOnP_eq_single
  intro x hx hbeq
  exact h (by rw [show nl = x from (by simpa using hbeq : x = nl).symm]; exact hx)

/-- The three multi-line distribution branches and the single-line branch
all compute `lines[i % lines.length]` for `i < cursorCount`. -/
theorem prepare_eq_cyclic (content : Line) (lw : Bool) (C : Nat) (hc : content ≠ []) :
    (ClipboardSt.mk content lw).prepareTextForDistribution C =
      (List.range C).map
        (fun i => (content.splitOn nl).getD (i % (content.splitOn nl).length) []) := by
  unfold ClipboardSt.prepareTextForDistribution
  dsimp only
  rw [if_neg (by simp [List.isEmpty_iff, hc])]
  split
  · split
    · next heq =>
      apply List.ext_getElem
      · simp [heq]
      · intro i h1 h2
        rw [List.getElem_map, List.getElem_range]
        have hiC : i < C := by simpa using h2
        rw [Nat.mod_eq_of_lt (heq ▸ hiC)]
        rw [List.getD_eq_getElem _ _ (heq ▸ hiC)]
    · split
      · rfl
      · rfl
  · next hcont =>
    have hsingle : content.splitOn nl = [content] :=
      splitOn_eq_single_of_not_contains content (by simpa using hcont)
    rw [hsingle]
    apply List.ext_getElem
    · simp
    · intro i h1 h2
      simp [List.getElem_replicate, Nat.mod_one]

/-! ### List surgery helpers for the flattened-content semantics -/

/-- `set` at a valid index is a take/cons/drop splice. -/
theorem set_shape {α : Type} (l : List α) (i : Nat) (x : α) (h : i < l.length) :
    l.set i x = l.take i ++ x :: l.drop (i + 1) := by
  rw [List.set_eq_take_append_cons_drop, if_pos h]

/-- Taking one element past a prefix keeps the prefix and that element. -/
theorem take_len_cons {α : Type} (A : List α) (x : α) (B : List α) :
    (A ++ x :: B).take (A.length + 1) = A ++ [x] := by
  induction A with
  | nil => simp
  | cons a A' ih => simp [ih]

/-- Dropping past a prefix and one element lands in the suffix. -/
theorem drop_len_cons_add {α : Type} (A : List α) (x : α) (B : List α) (k : Nat) :
    (A ++ x :: B).drop (A.length + 1 + k) = B.drop k := by
  induction A with
  | nil =>
    rw [List.nil_append, List.length_nil, Nat.zero_add, Nat.add_comm 1 k,
      List.drop_succ_cons]
  | cons a A' ih =>
    rw [List.cons_append, List.length_cons,
      show A'.length + 1 + 1 + k = (A'.length + 1 + k) + 1 from by omega,
      List.drop_succ_cons, ih]

/-- Dropping exactly past a prefix and one element gives the suffix. -/
theorem drop_len_cons {α : Type} (A : List α) (x : α) (B : List α) :
    (A ++ x :: B).drop (A.length + 1) = B := by
  have := drop_len_cons_add A x B 0
  rwa [Nat.add_zero, List.drop_zero] at this

/-- Reading exactly past a prefix gives the cons element. -/
theorem getD_append_len (A : List Line) (x : Line) (B : List Line) :
    (A ++ x :: B).getD A.length [] = x := by
  induction A with
  | nil => rfl
  | cons a A' ih => simpa using ih

/-- Writing exactly past a prefix replaces the cons element. -/
theorem set_append_len (A : List Line) (x y : Line) (B : List Line) :
    (A ++ x :: B).set A.length y = A ++ y :: B := by
  induction A with
  | nil => rfl
  | cons a A' ih => simp [ih]

/-! ### Flattened-content lemmas about the newline join -/

/-- Unfolding `joinLines` on a cons with a non-empty tail. -/
theorem joinLines_cons_of_ne_nil (l : Line) (ls : List Line) (h : ls ≠ []) :
    BufferSt.joinLines (l :: ls) = l ++ nl :: BufferSt.joinLines ls := by
  cases ls with
  | nil => exact absurd rfl h
  | cons a ls' => rfl

/-- The central decomposition: splitting one line splits the join without
a separator at the split point. -/
theorem joinLines_decomp (A : List Line) (u v : Line) (B : List Line) :
    BufferSt.joinLines (A ++ (u ++ v) :: B) =
      BufferSt.joinLines (A ++ [u]) ++ BufferSt.joinLines (v :: B) := by
  induction A with
  | nil =>
    cases B with
    | nil => simp [BufferSt.joinLines]
    | cons b B' => simp [BufferSt.joinLines]
  | cons a A' ih =>
    have hne : A' ++ (u ++ v) :: B ≠ [] := by simp
    have hne2 : A' ++ [u] ≠ [] := by simp
    rw [List.cons_append, joinLines_cons_of_ne_nil a _ hne, List.cons_append,
      joinLines_cons_of_ne_nil a _ hne2, ih]
    simp

/-- The length of a joined prefix. -/
theorem joinLines_snoc_length (A : List Line) (u : Line) :
    (BufferSt.joinLines (A ++ [u])).length =
      ((A.map (fun l => l.length + 1)).sum) + u.length := by
  induction A with
  | nil => simp [BufferSt.joinLines]
  | cons a A' ih =>
    have hne : A' ++ [u] ≠ [] := by simp
    rw [List.cons_append, joinLines_cons_of_ne_nil a _ hne]
    simp [ih]
    omega

/-- Splitting a line list at a valid row. -/
theorem rowSplit (L : List Line) (r : Nat) (h : r < L.length) :
    L = L.take r ++ (L.getD r []) :: L.drop (r + 1) := by
  conv_lhs => rw [← List.take_append_drop r L]
  rw [List.drop_eq_getElem_cons h, List.getD_eq_getElem _ _ h]

/-- `flatPos` unfolded. -/
theorem flatPos_def (L : List Line) (r c : Nat) :
    flatPos L ⟨r, c⟩ = ((L.take r).map (fun l => l.length + 1)).sum + c := rfl

/-- The join splits at any valid position. -/
theorem joinLines_split (L : List Line) (r c : Nat) (hr : r < L.length)
    (hc : c ≤ (L.getD r []).length) :
    BufferSt.joinLines L =
      BufferSt.joinLines (L.take r ++ [(L.getD r []).take c]) ++
        BufferSt.joinLines ((L.getD r []).drop c :: L.drop (r + 1)) := by
  conv_lhs => rw [rowSplit L r hr]
  conv_lhs => rw [← List.take_append_drop c (L.getD r [])]
  exact joinLines_decomp _ _ _ _

/-- The split prefix has length `flatPos`. -/
theorem prefix_length_eq_flatPos (L : List Line) (r c : Nat) (hr : r < L.length)
    (hc : c ≤ (L.getD r []).length) :
    (BufferSt.joinLines (L.take r ++ [(L.getD r []).take c])).length = flatPos L ⟨r, c⟩ := by
  rw [joinLines_snoc_length, flatPos_def, List.length_take, Nat.min_eq_left hc]

/-- Taking `flatPos` characters of the join takes the rows before plus the
columns before. -/
theorem joinLines_take_flatPos (L : List Line) (r c : Nat) (hr : r < L.length)
    (hc : c ≤ (L.getD r []).length) :
    (BufferSt.joinLines L).take (flatPos L ⟨r, c⟩) =
      BufferSt.joinLines (L.take r ++ [(L.getD r []).take c]) := by
  rw [joinLines_split L r c hr hc, ← prefix_length_eq_flatPos L r c hr hc, List.take_left]

/-- Dropping `flatPos` characters of the join keeps the columns after plus
the rows after. -/
theorem joinLines_drop_flatPos (L : List Line) (r c : Nat) (hr : r < L.length)
    (hc : c ≤ (L.getD r []).length) :
    (BufferSt.joinLines L).drop (flatPos L ⟨r, c⟩) =
      BufferSt.joinLines ((L.getD r []).drop c :: L.drop (r + 1)) := by
  rw [joinLines_split L r c hr hc, ← prefix_length_eq_flatPos L r c hr hc, List.drop_left]

/-- A valid flat position is inside the joined text. -/
theorem flatPos_le_length (L : List Line) (r c : Nat) (hr : r < L.length)
    (hc : c ≤ (L.getD r []).length) :
    flatPos L ⟨r, c⟩ ≤ (BufferSt.joinLines L).length := by
  rw [joinLines_split L r c hr hc, ← prefix_length_eq_flatPos L r c hr hc]
  simp

/-- The components of `ValidBounds`, with the position order unfolded. -/
theorem validBounds_elim (L : List Line) (b : Bounds) (hv : ValidBounds L b) :
    (b.startRow < b.endRow ∨ (b.startRow = b.endRow ∧ b.startCol ≤ b.endCol)) ∧
      b.endRow < L.length ∧ b.startCol ≤ (L.getD b.startRow []).length ∧
      b.endCol ≤ (L.getD b.endRow []).length := hv

/-- `padTo` is the identity at an in-range row. -/
theorem padTo_eq_self (L : List Line) (row : Nat) (h : row < L.length) :
    BufferSt.padTo L row = L := by
  unfold BufferSt.padTo
  rw [show row + 1 - L.length = 0 from by omega]
  simp

/-- `dropLast` plus `getLastD` reassembles a non-empty list. -/
theorem dropLast_append_getLastD {α : Type} (l : List α) (h : l ≠ []) :
    ∀ d, l.dropLast ++ [l.getLastD d] = l := by
  induction l with
  | nil => exact absurd rfl h
  | cons a l' ih =>
    intro d
    cases l' with
    | nil => rfl
    | cons b l'' =>
      have H := ih (by simp) a
      simp only [List.dropLast_cons₂, List.cons_append]
      rw [show (a :: b :: l'').getLastD d = (b :: l'').getLastD a from rfl, H]

/-- `_deleteBounds` at valid bounds in take/cons/drop normal form (the
same formula covers the single-row and the multi-row paths). -/
theorem deleteBounds_shape (L : List Line) (b : Bounds) (hv : ValidBounds L b) :
    deleteBounds L b = L.take b.startRow ++
      ((L.getD b.startRow []).take b.startCol ++ (L.getD b.endRow []).drop b.endCol) ::
        L.drop (b.endRow + 1) := by
  obtain ⟨hse, her, hsc, hec⟩ := validBounds_elim L b hv
  have hsr : b.startRow < L.length := by omega
  have hA : (L.take b.startRow).length = b.startRow := by
    rw [List.length_take]; omega
  unfold deleteBounds
  dsimp only
  split
  · next heq =>
    rw [set_shape _ _ _ hsr, ← heq]
  · next hne =>
    rw [set_shape _ _ _ hsr]
    rw [show b.startRow + 1 = (L.take b.startRow).length + 1 from by rw [hA]]
    rw [take_len_cons, drop_len_cons_add, List.drop_drop, hA]
    rw [show b.startRow + 1 + (b.endRow - b.startRow) = b.endRow + 1 from by omega]
    simp

/-- `_deleteBounds` in flat terms: it removes the flat span. -/
theorem deleteBounds_flat (L : List Line) (b : Bounds) (hv : ValidBounds L b) :
    BufferSt.joinLines (deleteBounds L b) =
      (BufferSt.joinLines L).take (flatPos L b.startPos) ++
        (BufferSt.joinLines L).drop (flatPos L b.endPos) := by
  obtain ⟨hse, her, hsc, hec⟩ := validBounds_elim L b hv
  have hsr : b.startRow < L.length := by omega
  rw [deleteBounds_shape L b hv, joinLines_decomp,
    show b.startPos = Pos.mk b.startRow b.startCol from rfl,
    show b.endPos = Pos.mk b.endRow b.endCol from rfl,
    joinLines_take_flatPos L b.startRow b.startCol hsr hsc,
    joinLines_drop_flatPos L b.endRow b.endCol her hec]

/-- `_insertTextAt` with a multi-part text, in normal form. -/
theorem insertTextAt_eq_multi (L : List Line) (row col : Nat) (t : Line)
    (hr : row < L.length) (hne : t ≠ []) (hk : (t.splitOn nl).length ≠ 1) :
    (insertTextAt L row col t).1 = L.take row ++
      ((L.getD row []).take col ++ (t.splitOn nl).getD 0 []) ::
        ((t.splitOn nl).tail.dropLast ++
          ((t.splitOn nl).tail.getLastD [] ++ (L.getD row []).drop col) ::
            L.drop (row + 1)) := by
  have hpne : t.splitOn nl ≠ [] := splitOn_ne_nil_line nl t
  have htail : (t.splitOn nl).tail ≠ [] := by
    rcases hparts : t.splitOn nl with _ | ⟨p0, tl⟩
    · exact absurd hparts hpne
    · rcases tl with _ | _
      · rw [hparts] at hk; simp at hk
      · simp
  have hA : (L.take row).length = row := by rw [List.length_take]; omega
  have hplen : 0 < (t.splitOn nl).tail.length := List.length_pos.2 htail
  unfold insertTextAt
  dsimp only
  rw [if_neg (by simp [List.isEmpty_iff, hne]), if_neg hk, padTo_eq_self L row hr]
  have h1 : L.set row ((L.getD row []).take col ++ (t.splitOn nl).getD 0 []) =
      L.take row ++ ((L.getD row []).take col ++ (t.splitOn nl).getD 0 []) :: L.drop (row + 1) :=
    set_shape _ _ _ hr
  have h2 : (L.set row ((L.getD row []).take col ++ (t.splitOn nl).getD 0 [])).take (row + 1) =
      L.take row ++ [(L.getD row []).take col ++ (t.splitOn nl).getD 0 []] := by
    rw [h1, show row + 1 = (L.take row).length + 1 from by rw [hA], take_len_cons]
  have h3 : (L.set row ((L.getD row []).take col ++ (t.splitOn nl).getD 0 [])).drop (row + 1) =
      L.drop (row + 1) := by
    rw [h1, show row + 1 = (L.take row).length + 1 from by rw [hA], drop_len_cons]
  rw [h2, h3]
  have h4 : L.take row ++ [(L.getD row []).take col ++ (t.splitOn nl).getD 0 []] ++
        (t.splitOn nl).tail ++ L.drop (row + 1) =
      (L.take row ++ ((L.getD row []).take col ++ (t.splitOn nl).getD 0 []) ::
        (t.splitOn nl).tail.dropLast) ++ (t.splitOn nl).tail.getLastD [] :: L.drop (row + 1) := by
    conv_lhs => rw [← dropLast_append_getLastD (t.splitOn nl).tail htail []]
    simp
  rw [h4]
  have hA2 : (L.take row ++ ((L.getD row []).take col ++ (t.splitOn nl).getD 0 []) ::
      (t.splitOn nl).tail.dropLast).length = row + (t.splitOn nl).length - 1 := by
    have hlen_eq : (t.splitOn nl).length = (t.splitOn nl).tail.length + 1 := by
      rcases hp : t.splitOn nl with _ | ⟨x, xs⟩
      · exact absurd hp hpne
      · simp
    simp only [List.length_append, List.length_cons, List.length_dropLast, hA]
    omega
  rw [show row + (t.splitOn nl).length - 1
      = (L.take row ++ ((L.getD row []).take col ++ (t.splitOn nl).getD 0 []) ::
          (t.splitOn nl).tail.dropLast).length from hA2.symm]
  rw [getD_append_len, set_append_len]
  simp

/-- `joinLines` is newline intercalation. -/
theorem joinLines_eq_intercalate (ls : List Line) :
    BufferSt.joinLines ls = [nl].intercalate ls := by
  induction ls with
  | nil => rfl
  | cons l ls' ih =>
    cases ls' with
    | nil => simp [BufferSt.joinLines, List.intercalate]
    | cons m ms =>
      rw [joinLines_cons_of_ne_nil _ _ (by simp), ih]
      simp [List.intercalate, List.intersperse_cons_cons]

/-- Re-joining the newline split is the identity (JS
`split("\n").join("\n")`). -/
theorem joinLines_splitOn (t : Line) : BufferSt.joinLines (t.splitOn nl) = t := by
  rw [joinLines_eq_intercalate]
  exact List.intercalate_splitOn t nl

/-- `_insertTextAt` in flat terms: it inserts the text at the flat
position (in all three of its cases). -/
theorem insertTextAt_flat (L : List Line) (row col : Nat) (t : Line)
    (hr : row < L.length) (hc : col ≤ (L.getD row []).length) :
    BufferSt.joinLines (insertTextAt L row col t).1 =
      (BufferSt.joinLines L).take (flatPos L ⟨row, col⟩) ++ t ++
        (BufferSt.joinLines L).drop (flatPos L ⟨row, col⟩) := by
  by_cases hne : t = []
  · subst hne
    unfold insertTextAt
    rw [if_pos (by simp)]
    rw [List.append_nil, List.take_append_drop]
  · by_cases hk : (t.splitOn nl).length = 1
    · -- single-part text: no newline in `t`, and the single part is `t`
      obtain ⟨x, hx⟩ := List.length_eq_one.mp hk
      have hxt : x = t := by
        have := joinLines_splitOn t
        rw [hx] at this
        simpa [BufferSt.joinLines] using this
      unfold insertTextAt
      dsimp only
      rw [if_neg (by simp [List.isEmpty_iff, hne]), if_pos hk, padTo_eq_self L row hr,
        hx]
      rw [show ([x] : List Line).getD 0 [] = x from rfl]
      rw [hxt, set_shape _ _ _ hr]
      rw [show (L.getD row []).take col ++ t ++ (L.getD row []).drop col
          = (L.getD row []).take col ++ (t ++ (L.getD row []).drop col) from by simp]
      rw [joinLines_decomp, joinLines_take_flatPos L row col hr hc]
      rw [show (t ++ (L.getD row []).drop col) :: L.drop (row + 1)
          = (t ++ (L.getD row []).drop col) :: L.drop (row + 1) from rfl]
      rw [show BufferSt.joinLines ((t ++ (L.getD row []).drop col) :: L.drop (row + 1))
          = BufferSt.joinLines ([] ++ (t ++ (L.getD row []).drop col) :: L.drop (row + 1)) from rfl]
      rw [joinLines_decomp [] t ((L.getD row []).drop col) (L.drop (row + 1))]
      rw [joinLines_drop_flatPos L row col hr hc]
      simp [BufferSt.joinLines]
    · -- multi-part text
      rw [insertTextAt_eq_multi L row col t hr hne hk]
      have htail : (t.splitOn nl).tail ≠ [] := by
        rcases hparts : t.splitOn nl with _ | ⟨p0, tl⟩
        · exact absurd hparts (splitOn_ne_nil_line nl t)
        · rcases tl with _ | _
          · rw [hparts] at hk; simp at hk
          · simp
      have hsplit : t.splitOn nl = (t.splitOn nl).getD 0 [] :: (t.splitOn nl).tail := by
        rcases hparts : t.splitOn nl with _ | ⟨p0, tl⟩
        · exact absurd hparts (splitOn_ne_nil_line nl t)
        · rfl
      rw [joinLines_decomp, joinLines_take_flatPos L row col hr hc]
      have hmid : (t.splitOn nl).getD 0 [] ::
          ((t.splitOn nl).tail.dropLast ++
            ((t.splitOn nl).tail.getLastD [] ++ (L.getD row []).drop col) ::
              L.drop (row + 1))
          = ((t.splitOn nl).getD 0 [] :: (t.splitOn nl).tail.dropLast) ++
            ((t.splitOn nl).tail.getLastD [] ++ (L.getD row []).drop col) ::
              L.drop (row + 1) := by simp
      rw [hmid, joinLines_decomp]
      have hparts_reassemble : (t.splitOn nl).getD 0 [] :: (t.splitOn nl).tail.dropLast
          ++ [(t.splitOn nl).tail.getLastD []] = t.splitOn nl := by
        rw [List.cons_append, dropLast_append_getLastD (t.splitOn nl).tail htail []]
        exact hsplit.symm
      rw [hparts_reassemble, joinLines_splitOn, joinLines_drop_flatPos L row col hr hc]
      simp

/-! ### The descending loop against the simultaneous semantics (C2) -/

/-- `saveToHistory()` does not touch the line list. -/
theorem saveToHistory_lines (b : BufferSt) : b.saveToHistory.lines = b.lines := rfl

/-- The position order is transitive. -/
theorem posLe_trans {p q r : Pos} (h1 : posLe p q) (h2 : posLe q r) : posLe p r := by
  unfold posLe at *
  omega

/-- The per-line length sum over one more row. -/
theorem lineLenSum_take_succ (L : List Line) (n : Nat) (h : n < L.length) :
    ((L.take (n + 1)).map (fun l => l.length + 1)).sum =
      ((L.take n).map (fun l => l.length + 1)).sum + ((L.getD n []).length + 1) := by
  have hn : L[n]? = some (L.getD n []) := by
    rw [List.getD_eq_getElem L [] h, List.getElem?_eq_getElem h]
  rw [List.take_succ, hn]
  simp

/-- The per-line length sum is monotone in the number of rows taken. -/
theorem lineLenSum_take_mono (L : List Line) {n m : Nat} (h : n ≤ m) :
    ((L.take n).map (fun l => l.length + 1)).sum ≤
      ((L.take m).map (fun l => l.length + 1)).sum := by
  have he : L.take n = (L.take m).take n := by
    rw [List.take_take, Nat.min_eq_left h]
  rw [he]
  conv_rhs => rw [← List.take_append_drop n (L.take m)]
  rw [List.map_append, List.sum_append]
  exact Nat.le_add_right _ _

/-- `flatPos` is monotone along the position order at valid positions. -/
theorem flatPos_mono (L : List Line) (p q : Pos) (hpq : posLe p q)
    (hr : p.row < L.length) (hc : p.col ≤ (L.getD p.row []).length) :
    flatPos L p ≤ flatPos L q := by
  unfold flatPos
  rcases hpq with hlt | ⟨heq, hle⟩
  · have h1 := lineLenSum_take_succ L p.row hr
    have h2 := lineLenSum_take_mono L (show p.row + 1 ≤ q.row from hlt)
    omega
  · rw [heq]
    omega

/-- Lists with equal `take n` prefixes read equally below `n`. -/
theorem getD_of_take_eq {α : Type} (A B : List α) (n i : Nat) (d : α)
    (h : A.take n = B.take n) (hi : i < n) : A.getD i d = B.getD i d := by
  unfold List.getD
  rw [List.get?_eq_getElem?, List.get?_eq_getElem?,
    ← List.getElem?_take_of_lt (l := A) hi, ← List.getElem?_take_of_lt (l := B) hi, h]

/-- `AgreeBelow` is reflexive at valid positions. -/
theorem agreeBelow_refl (L : List Line) (p : Pos) (hr : p.row < L.length)
    (hc : p.col ≤ (L.getD p.row []).length) : AgreeBelow L L p :=
  ⟨rfl, hr, rfl, hc⟩

/-- Agreement below a position preserves its flat offset. -/
theorem flatPos_of_agreeBelow (L M : List Line) (p : Pos) (h : AgreeBelow L M p) :
    flatPos M p = flatPos L p := by
  unfold flatPos
  rw [h.1]

/-- Agreement below a position preserves the joined text before it. -/
theorem joinLines_take_of_agreeBelow (L M : List Line) (p : Pos)
    (h : AgreeBelow L M p) (hr : p.row < L.length)
    (hc : p.col ≤ (L.getD p.row []).length) :
    (BufferSt.joinLines M).take (flatPos L p) =
      (BufferSt.joinLines L).take (flatPos L p) := by
  obtain ⟨h1, h2, h3, h4⟩ := h
  have hfp : flatPos M p = flatPos L p := by
    unfold flatPos
    rw [h1]
  have hM : (BufferSt.joinLines M).take (flatPos M ⟨p.row, p.col⟩) =
      BufferSt.joinLines (M.take p.row ++ [(M.getD p.row []).take p.col]) :=
    joinLines_take_flatPos M p.row p.col h2 h4
  have hL : (BufferSt.joinLines L).take (flatPos L ⟨p.row, p.col⟩) =
      BufferSt.joinLines (L.take p.row ++ [(L.getD p.row []).take p.col]) :=
    joinLines_take_flatPos L p.row p.col hr hc
  have hmk : (⟨p.row, p.col⟩ : Pos) = p := rfl
  rw [hmk] at hM hL
  rw [hL, ← hfp, hM, h1, h3]

/-- Validity of bounds transfers along agreement below their end. -/
theorem validBounds_of_agreeBelow (L M : List Line) (b : Bounds)
    (hv : ValidBounds L b) (h : AgreeBelow L M b.endPos) : ValidBounds M b := by
  obtain ⟨hse, her, hsc, hec⟩ := validBounds_elim L b hv
  obtain ⟨h1, h2, h3, h4⟩ := h
  refine ⟨hv.1, h2, ?_, h4⟩
  rcases hse with hlt | ⟨heq, hle⟩
  · rw [getD_of_take_eq M L b.endRow b.startRow [] h1 hlt]
    exact hsc
  · rw [heq]
    exact Nat.le_trans hle h4

/-- Agreement below `p` composes with a later agreement below `q ≥ p`. -/
theorem agreeBelow_trans (L M M' : List Line) (p q : Pos)
    (h1 : AgreeBelow L M p) (h2 : AgreeBelow M M' q) (hpq : posLe p q) :
    AgreeBelow L M' p := by
  obtain ⟨a1, a2, a3, a4⟩ := h1
  obtain ⟨b1, b2, b3, b4⟩ := h2
  have hrow : p.row ≤ q.row := by
    unfold posLe at hpq
    omega
  have htk : M'.take p.row = M.take p.row := by
    have h0 := congrArg (List.take p.row) b1
    rwa [List.take_take, List.take_take, Nat.min_eq_left hrow] at h0
  refine ⟨?_, ?_, ?_, ?_⟩
  · rw [htk, a1]
  · omega
  · rcases Nat.lt_or_ge p.row q.row with hlt | hge
    · rw [getD_of_take_eq M' M q.row p.row [] b1 hlt]
      exact a3
    · have heq : p.row = q.row := by omega
      have hcol : p.col ≤ q.col := by
        unfold posLe at hpq
        omega
      have h0 := congrArg (List.take p.col) b3
      rw [List.take_take, List.take_take, Nat.min_eq_left hcol, ← heq] at h0
      rw [h0]
      exact a3
  · rcases Nat.lt_or_ge p.row q.row with hlt | hge
    · rw [getD_of_take_eq M' M q.row p.row [] b1 hlt]
      exact a4
    · have heq : p.row = q.row := by omega
      have hcol : p.col ≤ q.col := by
        unfold posLe at hpq
        omega
      rw [heq]
      exact Nat.le_trans hcol b4

/-- `_insertTextAt` at an in-range row keeps the rows above and the columns
before the insertion point: the result is the untouched prefix, then a row
starting with the untouched head of the target row. -/
theorem insertTextAt_shape (L : List Line) (row col : Nat) (t : Line)
    (hr : row < L.length) :
    ∃ u R, (insertTextAt L row col t).1 =
      L.take row ++ ((L.getD row []).take col ++ u) :: R := by
  by_cases hne : t = []
  · subst hne
    refine ⟨(L.getD row []).drop col, L.drop (row + 1), ?_⟩
    unfold insertTextAt
    rw [if_pos (by simp)]
    conv_rhs => rw [List.take_append_drop col (L.getD row [])]
    exact rowSplit L row hr
  · by_cases hk : (t.splitOn nl).length = 1
    · refine ⟨(t.splitOn nl).getD 0 [] ++ (L.getD row []).drop col, L.drop (row + 1), ?_⟩
      unfold insertTextAt
      dsimp only
      rw [if_neg (by simp [List.isEmpty_iff, hne]), if_pos hk, padTo_eq_self L row hr,
        set_shape _ _ _ hr, List.append_assoc]
    · exact ⟨(t.splitOn nl).getD 0 [], _, insertTextAt_eq_multi L row col t hr hne hk⟩

/-- One action of the descending loop keeps the rows above and the columns
before its target start. -/
theorem applyOneAction_shape (M : List Line) (a : EditAction)
    (hv : ValidBounds M a.bounds) :
    ∃ u R, (applyOneAction M a).1 =
      M.take a.bounds.startRow ++
        ((M.getD a.bounds.startRow []).take a.bounds.startCol ++ u) :: R := by
  obtain ⟨hse, her, hsc, hec⟩ := validBounds_elim M a.bounds hv
  have hsr : a.bounds.startRow < M.length := by omega
  unfold applyOneAction
  dsimp only
  by_cases hemp : isEmptyBounds a.bounds
  · rw [if_pos hemp]
    exact insertTextAt_shape M a.bounds.startRow a.bounds.startCol a.text hsr
  · rw [if_neg hemp]
    have hshape := deleteBounds_shape M a.bounds hv
    have hlenA : (M.take a.bounds.startRow).length = a.bounds.startRow := by
      rw [List.length_take]
      omega
    have hpre : ((M.getD a.bounds.startRow []).take a.bounds.startCol).length
        = a.bounds.startCol := by
      rw [List.length_take]
      omega
    have hr1 : a.bounds.startRow < (deleteBounds M a.bounds).length := by
      rw [hshape, List.length_append, List.length_cons, hlenA]
      omega
    have hgd1 : (deleteBounds M a.bounds).getD a.bounds.startRow [] =
        (M.getD a.bounds.startRow []).take a.bounds.startCol ++
          (M.getD a.bounds.endRow []).drop a.bounds.endCol := by
      have h0 := getD_append_len (M.take a.bounds.startRow)
        ((M.getD a.bounds.startRow []).take a.bounds.startCol ++
          (M.getD a.bounds.endRow []).drop a.bounds.endCol)
        (M.drop (a.bounds.endRow + 1))
      rw [hlenA] at h0
      rw [hshape]
      exact h0
    have htk1 : (deleteBounds M a.bounds).take a.bounds.startRow
        = M.take a.bounds.startRow := by
      have h0 := List.take_left (M.take a.bounds.startRow)
        (((M.getD a.bounds.startRow []).take a.bounds.startCol ++
          (M.getD a.bounds.endRow []).drop a.bounds.endCol) ::
          M.drop (a.bounds.endRow + 1))
      rw [hlenA] at h0
      rw [hshape]
      exact h0
    have htksc : ((deleteBounds M a.bounds).getD a.bounds.startRow []).take a.bounds.startCol
        = (M.getD a.bounds.startRow []).take a.bounds.startCol := by
      rw [hgd1]
      have h0 := List.take_left ((M.getD a.bounds.startRow []).take a.bounds.startCol)
        ((M.getD a.bounds.endRow []).drop a.bounds.endCol)
      rw [hpre] at h0
      exact h0
    obtain ⟨u, R, hins⟩ :=
      insertTextAt_shape (deleteBounds M a.bounds) a.bounds.startRow a.bounds.startCol a.text hr1
    exact ⟨u, R, by rw [hins, htk1, htksc]⟩

/-- One action of the descending loop leaves everything strictly before its
target start unchanged. -/
theorem applyOneAction_agreeBelow (M : List Line) (a : EditAction)
    (hv : ValidBounds M a.bounds) :
    AgreeBelow M (applyOneAction M a).1 a.bounds.startPos := by
  obtain ⟨hse, her, hsc, hec⟩ := validBounds_elim M a.bounds hv
  have hsr : a.bounds.startRow < M.length := by omega
  obtain ⟨u, R, hshape⟩ := applyOneAction_shape M a hv
  have hlenA : (M.take a.bounds.startRow).length = a.bounds.startRow := by
    rw [List.length_take]
    omega
  have hpre : ((M.getD a.bounds.startRow []).take a.bounds.startCol).length
      = a.bounds.startCol := by
    rw [List.length_take]
    omega
  have hgd : (applyOneAction M a).1.getD a.bounds.startRow [] =
      (M.getD a.bounds.startRow []).take a.bounds.startCol ++ u := by
    have h0 := getD_append_len (M.take a.bounds.startRow)
      ((M.getD a.bounds.startRow []).take a.bounds.startCol ++ u) R
    rw [hlenA] at h0
    rw [hshape]
    exact h0
  refine ⟨?_, ?_, ?_, ?_⟩
  · show (applyOneAction M a).1.take a.bounds.startRow = M.take a.bounds.startRow
    have h0 := List.take_left (M.take a.bounds.startRow)
      (((M.getD a.bounds.startRow []).take a.bounds.startCol ++ u) :: R)
    rw [hlenA] at h0
    rw [hshape]
    exact h0
  · show a.bounds.startRow < (applyOneAction M a).1.length
    rw [hshape, List.length_append, List.length_cons, hlenA]
    omega
  · show ((applyOneAction M a).1.getD a.bounds.startRow []).take a.bounds.startCol
      = (M.getD a.bounds.startRow []).take a.bounds.startCol
    rw [hgd]
    have h0 := List.take_left ((M.getD a.bounds.startRow []).take a.bounds.startCol) u
    rw [hpre] at h0
    exact h0
  · show a.bounds.startCol ≤ ((applyOneAction M a).1.getD a.bounds.startRow []).length
    rw [hgd, List.length_append, hpre]
    omega

/-- One action of the descending loop, at valid bounds, in flat terms:
delete the flat target span, insert the text at its start. -/
theorem applyOneAction_flat (M : List Line) (a : EditAction)
    (hv : ValidBounds M a.bounds) :
    BufferSt.joinLines (applyOneAction M a).1 =
      (BufferSt.joinLines M).take (flatPos M a.bounds.startPos) ++ a.text ++
        (BufferSt.joinLines M).drop (flatPos M a.bounds.endPos) := by
  obtain ⟨hse, her, hsc, hec⟩ := validBounds_elim M a.bounds hv
  have hsr : a.bounds.startRow < M.length := by omega
  unfold applyOneAction
  dsimp only
  by_cases hemp : isEmptyBounds a.bounds
  · rw [if_pos hemp]
    have heq : a.bounds.endPos = a.bounds.startPos := by
      unfold isEmptyBounds at hemp
      simp only [Bool.and_eq_true, beq_iff_eq] at hemp
      show (⟨a.bounds.endRow, a.bounds.endCol⟩ : Pos) = ⟨a.bounds.startRow, a.bounds.startCol⟩
      rw [hemp.1, hemp.2]
    rw [heq]
    exact insertTextAt_flat M a.bounds.startRow a.bounds.startCol a.text hsr hsc
  · rw [if_neg hemp]
    show BufferSt.joinLines
        (insertTextAt (deleteBounds M a.bounds) a.bounds.startRow a.bounds.startCol a.text).1 =
      (BufferSt.joinLines M).take (flatPos M ⟨a.bounds.startRow, a.bounds.startCol⟩) ++ a.text ++
        (BufferSt.joinLines M).drop (flatPos M ⟨a.bounds.endRow, a.bounds.endCol⟩)
    have hshape := deleteBounds_shape M a.bounds hv
    have hlenA : (M.take a.bounds.startRow).length = a.bounds.startRow := by
      rw [List.length_take]
      omega
    have hpre : ((M.getD a.bounds.startRow []).take a.bounds.startCol).length
        = a.bounds.startCol := by
      rw [List.length_take]
      omega
    have hr1 : a.bounds.startRow < (deleteBounds M a.bounds).length := by
      rw [hshape, List.length_append, List.length_cons, hlenA]
      omega
    have hgd1 : (deleteBounds M a.bounds).getD a.bounds.startRow [] =
        (M.getD a.bounds.startRow []).take a.bounds.startCol ++
          (M.getD a.bounds.endRow []).drop a.bounds.endCol := by
      have h0 := getD_append_len (M.take a.bounds.startRow)
        ((M.getD a.bounds.startRow []).take a.bounds.startCol ++
          (M.getD a.bounds.endRow []).drop a.bounds.endCol)
        (M.drop (a.bounds.endRow + 1))
      rw [hlenA] at h0
      rw [hshape]
      exact h0
    have hc1 : a.bounds.startCol ≤ ((deleteBounds M a.bounds).getD a.bounds.startRow []).length := by
      rw [hgd1, List.length_append, hpre]
      omega
    have htk1 : (deleteBounds M a.bounds).take a.bounds.startRow
        = M.take a.bounds.startRow := by
      have h0 := List.take_left (M.take a.bounds.startRow)
        (((M.getD a.bounds.startRow []).take a.bounds.startCol ++
          (M.getD a.bounds.endRow []).drop a.bounds.endCol) ::
          M.drop (a.bounds.endRow + 1))
      rw [hlenA] at h0
      rw [hshape]
      exact h0
    have hfp1 : flatPos (deleteBounds M a.bounds) ⟨a.bounds.startRow, a.bounds.startCol⟩
        = flatPos M ⟨a.bounds.startRow, a.bounds.startCol⟩ := by
      unfold flatPos
      dsimp only
      rw [htk1]
    have hflat := insertTextAt_flat (deleteBounds M a.bounds)
      a.bounds.startRow a.bounds.startCol a.text hr1 hc1
    rw [hflat, hfp1]
    have hdel := deleteBounds_flat M a.bounds hv
    rw [show a.bounds.startPos = (⟨a.bounds.startRow, a.bounds.startCol⟩ : Pos) from rfl,
      show a.bounds.endPos = (⟨a.bounds.endRow, a.bounds.endCol⟩ : Pos) from rfl] at hdel
    rw [hdel]
    have hlen : ((BufferSt.joinLines M).take
        (flatPos M ⟨a.bounds.startRow, a.bounds.startCol⟩)).length
        = flatPos M ⟨a.bounds.startRow, a.bounds.startCol⟩ := by
      rw [List.length_take]
      exact Nat.min_eq_left (flatPos_le_length M _ _ hsr hsc)
    have h1 := List.take_left
      ((BufferSt.joinLines M).take (flatPos M ⟨a.bounds.startRow, a.bounds.startCol⟩))
      ((BufferSt.joinLines M).drop (flatPos M ⟨a.bounds.endRow, a.bounds.endCol⟩))
    have h2 := List.drop_left
      ((BufferSt.joinLines M).take (flatPos M ⟨a.bounds.startRow, a.bounds.startCol⟩))
      ((BufferSt.joinLines M).drop (flatPos M ⟨a.bounds.endRow, a.bounds.endCol⟩))
    rw [hlen] at h1 h2
    rw [h1, h2]

/-- In a chained action list whose targets are normalized, the head's end
precedes every later action's start. -/
theorem chainActs_head_le : ∀ (rest : List EditAction) (a : EditAction),
    ChainActs (a :: rest) →
    (∀ x ∈ rest, posLe x.bounds.startPos x.bounds.endPos) →
    ∀ x ∈ rest, posLe a.bounds.endPos x.bounds.startPos := by
  intro rest
  induction rest with
  | nil =>
    intro a _ _ x hx
    simp at hx
  | cons b rest' ih =>
    intro a hch hv x hx
    have hch' := List.chain'_cons.mp hch
    rcases List.mem_cons.mp hx with rfl | hx'
    · exact hch'.1
    · have hbb : posLe b.bounds.startPos b.bounds.endPos :=
        hv b (List.mem_cons_self b rest')
      have hbx := ih b hch'.2 (fun y hy => hv y (List.mem_cons_of_mem b hy)) x hx'
      exact posLe_trans hch'.1 (posLe_trans hbb hbx)

/-- The cons equation of the descending application loop. -/
theorem applyActionsDesc_cons (a : EditAction) (rest : List EditAction) (lines : List Line) :
    applyActionsDesc (a :: rest) lines =
      if a.perform then
        ((applyOneAction (applyActionsDesc rest lines).1 a).1,
          (applyOneAction (applyActionsDesc rest lines).1 a).2 ::
            (applyActionsDesc rest lines).2)
      else ((applyActionsDesc rest lines).1,
        Pos.mk a.bounds.startRow a.bounds.startCol :: (applyActionsDesc rest lines).2) := rfl

/-- The lines component of the cons equation. -/
theorem applyActionsDesc_cons_fst (a : EditAction) (rest : List EditAction) (lines : List Line) :
    (applyActionsDesc (a :: rest) lines).1 =
      if a.perform then (applyOneAction (applyActionsDesc rest lines).1 a).1
      else (applyActionsDesc rest lines).1 := by
  rw [applyActionsDesc_cons]
  by_cases ha : a.perform = true
  · rw [if_pos ha, if_pos ha]
  · rw [if_neg ha, if_neg ha]

/-- Skipped actions do not touch the lines: the loop's resulting lines are
those of the performed actions alone. -/
theorem applyActionsDesc_fst_filter (acts : List EditAction) (lines : List Line) :
    (applyActionsDesc acts lines).1 =
      (applyActionsDesc (acts.filter (fun x => x.perform)) lines).1 := by
  induction acts with
  | nil => rfl
  | cons a rest ih =>
    cases ha : a.perform with
    | true =>
      have hfc : (a :: rest).filter (fun x => x.perform)
          = a :: rest.filter (fun x => x.perform) := by
        simp [List.filter_cons, ha]
      rw [hfc, applyActionsDesc_cons_fst, applyActionsDesc_cons_fst,
        if_pos ha, if_pos ha, ih]
    | false =>
      have hfc : (a :: rest).filter (fun x => x.perform)
          = rest.filter (fun x => x.perform) := by
        simp [List.filter_cons, ha]
      rw [hfc, applyActionsDesc_cons_fst, if_neg (by simp [ha]), ih]

/-- The main correspondence: applying chained, valid, performing actions
bottom-to-top equals the simultaneous flat replacement, and everything
strictly before all the targets is untouched. -/
theorem applyActionsDesc_flat (L : List Line) : ∀ (acts : List EditAction),
    (∀ a ∈ acts, a.perform = true) →
    (∀ a ∈ acts, ValidBounds L a.bounds) →
    ChainActs acts →
    BufferSt.joinLines (applyActionsDesc acts L).1 =
        simReplace (BufferSt.joinLines L) (flatSpans L acts) ∧
      ∀ p : Pos, p.row < L.length → p.col ≤ (L.getD p.row []).length →
        (∀ a ∈ acts, posLe p a.bounds.startPos) →
        AgreeBelow L (applyActionsDesc acts L).1 p := by
  intro acts
  induction acts with
  | nil =>
    intro _ _ _
    exact ⟨rfl, fun p hr hc _ => agreeBelow_refl L p hr hc⟩
  | cons a rest ih =>
    intro hperf hv hch
    have hperfa : a.perform = true := hperf a (List.mem_cons_self a rest)
    have hva : ValidBounds L a.bounds := hv a (List.mem_cons_self a rest)
    have hperfr : ∀ x ∈ rest, x.perform = true :=
      fun x hx => hperf x (List.mem_cons_of_mem a hx)
    have hvr : ∀ x ∈ rest, ValidBounds L x.bounds :=
      fun x hx => hv x (List.mem_cons_of_mem a hx)
    have hchr : ChainActs rest := List.Chain'.tail hch
    obtain ⟨ih1, ih2⟩ := ih hperfr hvr hchr
    obtain ⟨hse, her, hsc, hec⟩ := validBounds_elim L a.bounds hva
    have hsr : a.bounds.startRow < L.length := by omega
    have hResEq : (applyActionsDesc (a :: rest) L).1
        = (applyOneAction (applyActionsDesc rest L).1 a).1 := by
      rw [applyActionsDesc_cons_fst, if_pos hperfa]
    have hstart_le_end : posLe a.bounds.startPos a.bounds.endPos := hva.1
    have hrest_valid_pos : ∀ x ∈ rest, posLe x.bounds.startPos x.bounds.endPos :=
      fun x hx => (hvr x hx).1
    have hEndLe : ∀ x ∈ rest, posLe a.bounds.endPos x.bounds.startPos :=
      chainActs_head_le rest a hch hrest_valid_pos
    have hAgreeEnd : AgreeBelow L (applyActionsDesc rest L).1 a.bounds.endPos :=
      ih2 a.bounds.endPos her hec hEndLe
    have hAgreeStart : AgreeBelow L (applyActionsDesc rest L).1 a.bounds.startPos :=
      ih2 a.bounds.startPos hsr hsc
        (fun x hx => posLe_trans hstart_le_end (hEndLe x hx))
    have hVB1 : ValidBounds (applyActionsDesc rest L).1 a.bounds :=
      validBounds_of_agreeBelow L _ a.bounds hva hAgreeEnd
    have hflatA := applyOneAction_flat (applyActionsDesc rest L).1 a hVB1
    have hfpS := flatPos_of_agreeBelow L _ a.bounds.startPos hAgreeStart
    have hfpE := flatPos_of_agreeBelow L _ a.bounds.endPos hAgreeEnd
    have hTakeE := joinLines_take_of_agreeBelow L _ a.bounds.endPos hAgreeEnd her hec
    have hfle : flatPos L a.bounds.startPos ≤ flatPos L a.bounds.endPos :=
      flatPos_mono L _ _ hstart_le_end hsr hsc
    have hTakeS : (BufferSt.joinLines (applyActionsDesc rest L).1).take
          (flatPos L a.bounds.startPos) =
        (BufferSt.joinLines L).take (flatPos L a.bounds.startPos) := by
      have h1 := congrArg (List.take (flatPos L a.bounds.startPos)) hTakeE
      rwa [List.take_take, List.take_take, Nat.min_eq_left hfle] at h1
    constructor
    · rw [hResEq, hflatA, hfpS, hfpE, hTakeS, ih1]
      rfl
    · intro p hr hc hple
      have hAgreeP : AgreeBelow L (applyActionsDesc rest L).1 p :=
        ih2 p hr hc (fun x hx => hple x (List.mem_cons_of_mem a hx))
      have hstep : AgreeBelow (applyActionsDesc rest L).1
          (applyOneAction (applyActionsDesc rest L).1 a).1 a.bounds.startPos :=
        applyOneAction_agreeBelow _ a hVB1
      rw [hResEq]
      exact agreeBelow_trans L _ _ p a.bounds.startPos hAgreeP hstep
        (hple a (List.mem_cons_self a rest))

/-! ## Claim theorems -/

/-- C10: a `SelectionRange` whose anchor equals its head (`isEmpty()`)
contains no position at all: `contains(row, col)` is `false` everywhere. -/
theorem empty_range_contains_nothing (r : SelectionRange)
    (h : r.isEmpty = true) (row col : Nat) : r.contains row col = false := by
  rcases r with ⟨⟨ar, ac⟩, ⟨hr, hc⟩⟩
  simp only [SelectionRange.isEmpty, Bool.and_eq_true, beq_iff_eq] at h
  obtain ⟨rfl, rfl⟩ := h
  simp only [SelectionRange.contains, SelectionRange.getBounds]
  simp only [lt_self_iff_false, le_refl, and_self, true_and, or_true, if_true]
  by_cases h1 : row < ar ∨ row > ar
  · simp [h1]
  · push_neg at h1
    have hrow : row = ar := le_antisymm h1.2 h1.1
    subst hrow
    by_cases h2 : col < ac
    · simp [h2]
    · simp [h2, Nat.le_of_not_lt h2]

/-- C10 witness: the empty range at (2,3) does not contain (2,3). -/
theorem empty_range_contains_nothing_witness :
    (SelectionRange.fromPositions 2 3 2 3).isEmpty = true ∧
      (SelectionRange.fromPositions 2 3 2 3).contains 2 3 = false :=
  ⟨by decide, empty_range_contains_nothing _ (by decide) 2 3⟩

/-- C1: a modifying `replaceRanges` call records exactly one history
snapshot, whatever the number of ranges: the resulting history and history
index are those produced by a single `saveToHistory()` on the pre-call
buffer (the descending edit loop itself never touches the history). -/
theorem replaceRanges_single_history_snapshot (σ : SelSt) (cb : Callback)
    (h : (σ.replaceRanges cb).2 = true) :
    (σ.replaceRanges cb).1.buffer.history = σ.buffer.saveToHistory.history ∧
      (σ.replaceRanges cb).1.buffer.historyIndex = σ.buffer.saveToHistory.historyIndex := by
  rw [replaceRanges_fst_buffer σ cb h]
  unfold replaceBufferAfter
  exact ⟨rfl, rfl⟩

/-- C1 witness: replacing the single range of `selW` with `"X"` modifies
and leaves the one-snapshot history. -/
theorem replaceRanges_single_history_snapshot_witness :
    (selW.replaceRanges cbX).2 = true ∧
      (selW.replaceRanges cbX).1.buffer.history = selW.buffer.saveToHistory.history ∧
      (selW.replaceRanges cbX).1.buffer.historyIndex = selW.buffer.saveToHistory.historyIndex :=
  ⟨by decide, replaceRanges_single_history_snapshot selW cbX (by decide)⟩

/-- C3: on an active selection, `replaceRanges` with an always-`null`
callback returns `false` and leaves lines, modified flag, history and
history index untouched — no snapshot is recorded. -/
theorem replaceRanges_null_callback_noop (σ : SelSt) (cb : Callback)
    (hcb : ∀ r b i, cb r b i = none) (hact : σ.active = true) :
    (σ.replaceRanges cb).2 = false ∧
      (σ.replaceRanges cb).1.buffer.lines = σ.buffer.lines ∧
      (σ.replaceRanges cb).1.buffer.modified = σ.buffer.modified ∧
      (σ.replaceRanges cb).1.buffer.history = σ.buffer.history ∧
      (σ.replaceRanges cb).1.buffer.historyIndex = σ.buffer.historyIndex := by
  have h := replaceRanges_of_any_false σ cb (replaceActions_no_perform σ cb hcb)
  rw [h]
  exact ⟨rfl, rfl, rfl, rfl, rfl⟩

/-- C3 witness: the always-`null` callback on the active `selW`. -/
theorem replaceRanges_null_callback_noop_witness :
    selW.active = true ∧ (selW.replaceRanges cbNone).2 = false ∧
      (selW.replaceRanges cbNone).1.buffer.lines = selW.buffer.lines :=
  ⟨by decide,
    (replaceRanges_null_callback_noop selW cbNone (fun _ _ _ => rfl) (by decide)).1,
    (replaceRanges_null_callback_noop selW cbNone (fun _ _ _ => rfl) (by decide)).2.1⟩

/-- C7 (amended): after `start`, `setRanges`, `addRange`, `selectWord`,
`selectLine`, `selectAll`, `delete`, any modifying `replaceRanges` and any
successful `addNextOccurrence`, the range list is sorted ascending by
`(startRow, startCol)`; non-modifying `replaceRanges` / `addNextOccurrence`
calls leave the list unchanged.  (`update` and `extendTo` rewrite the
primary head in place without re-sorting and are excluded — see the
counterexample.) -/
theorem rangeSet_sorted_after_mutations (σ : SelSt) (rs : List SelectionRange)
    (pi : Int) (r : SelectionRange) (mp : Bool) (row fuel : Nat) (loop : Bool)
    (cb : Callback) :
    SortedRanges σ.start.ranges ∧
    SortedRanges (σ.setRanges rs pi).ranges ∧
    SortedRanges (σ.addRange r mp).ranges ∧
    SortedRanges (σ.selectLine row).ranges ∧
    SortedRanges σ.selectWord.1.ranges ∧
    SortedRanges σ.selectAll.ranges ∧
    SortedRanges σ.delete.1.ranges ∧
    ((σ.replaceRanges cb).2 = true → SortedRanges (σ.replaceRanges cb).1.ranges) ∧
    ((σ.replaceRanges cb).2 = false → (σ.replaceRanges cb).1.ranges = σ.ranges) ∧
    ((σ.addNextOccurrence fuel loop).2 = true →
      SortedRanges (σ.addNextOccurrence fuel loop).1.ranges) ∧
    ((σ.addNextOccurrence fuel loop).2 = false →
      (σ.addNextOccurrence fuel loop).1.ranges = σ.ranges) := by
  refine ⟨setRanges_ranges_sorted σ _ _, setRanges_ranges_sorted σ _ _, ?_,
    setRanges_ranges_sorted σ _ _, selectWord_ranges_sorted σ,
    setRanges_ranges_sorted σ _ _, delete_ranges_sorted σ, ?_, ?_, ?_, ?_⟩
  · unfold SelSt.addRange
    dsimp only
    split <;> exact sortRangesList_sorted _
  · intro h
    rw [replaceRanges_fst_ranges σ cb h]
    exact setRanges_ranges_sorted _ _ _
  · intro h
    rw [replaceRanges_of_snd_false σ cb h]
  · intro h
    rcases addNextOccurrence_shape fuel σ loop with ⟨h1, _⟩ | ⟨_, h2⟩
    · rw [h] at h1; cases h1
    · exact h2
  · intro h
    rcases addNextOccurrence_shape fuel σ loop with ⟨_, h2⟩ | ⟨h1, _⟩
    · exact h2
    · rw [h] at h1; cases h1

/-- C7 counterexample: from a reachable two-range state, `extendTo` (and
`update`, the same in-place head write) leaves the range list unsorted, so
the claim's inclusion of `update`/`extendTo` fails on the code. -/
theorem extendTo_update_leave_unsorted :
    SortedRanges selTwo.ranges ∧
      ¬ SortedRanges ((selTwo.extendTo 0 1).ranges) ∧
      ¬ SortedRanges (SelSt.update selTwo).ranges := by decide

/-- C7 witness: concrete sorted results after a modifying
`replaceRanges` and after `start`. -/
theorem rangeSet_sorted_after_mutations_witness :
    SortedRanges (selW.replaceRanges cbX).1.ranges ∧ SortedRanges selW.start.ranges :=
  ⟨(rangeSet_sorted_after_mutations selW [] 0 ⟨⟨0, 0⟩, ⟨0, 0⟩⟩ true 0 5 false
      cbX).2.2.2.2.2.2.2.1 (by decide),
    (rangeSet_sorted_after_mutations selW [] 0 ⟨⟨0, 0⟩, ⟨0, 0⟩⟩ true 0 5 false cbX).1⟩

/-- C8 (amended): along every sequence of public `Selection` operations
from the empty state that never calls `addRange` with
`makePrimary = false` on an empty set, `primaryIndex` is a valid index
whenever `ranges` is non-empty, and it is `-1` exactly when `ranges` is
empty. -/
theorem primaryIndex_invariant (buf : BufferSt) (cur : Cursor) (ops : List PubOp)
    (hok : runOk (initSel buf cur) ops) :
    ((runOps (initSel buf cur) ops).ranges ≠ [] →
      0 ≤ (runOps (initSel buf cur) ops).primaryIndex ∧
        (runOps (initSel buf cur) ops).primaryIndex <
          ((runOps (initSel buf cur) ops).ranges.length : Int)) ∧
    ((runOps (initSel buf cur) ops).primaryIndex = -1 ↔
      (runOps (initSel buf cur) ops).ranges = []) := by
  have hinv := runOps_inv ops (initSel buf cur) ⟨fun _ => rfl, fun h => absurd rfl h⟩ hok
  refine ⟨hinv.2, ?_, hinv.1⟩
  intro h
  by_contra hne
  have := hinv.2 hne
  omega

/-- C8 counterexample: the public call `addRange(range, false)` on the
empty set yields one range with `primaryIndex` still `-1`, violating the
claimed invariant. -/
theorem addRange_no_primary_counterexample :
    (runOps (initSel bufW ⟨0, 0⟩)
        [PubOp.opAddRange (SelectionRange.fromPositions 0 0 0 1) false]).ranges ≠ [] ∧
      (runOps (initSel bufW ⟨0, 0⟩)
        [PubOp.opAddRange (SelectionRange.fromPositions 0 0 0 1) false]).primaryIndex = -1 := by
  decide

/-- C8 witness: a concrete allowed run (`start` then `addRange`) ends with
a valid primary index. -/
theorem primaryIndex_invariant_witness :
    ((runOps (initSel bufW ⟨0, 0⟩)
        [PubOp.opStart, PubOp.opAddRange (SelectionRange.fromPositions 0 1 0 2) true]).ranges ≠ [] →
      0 ≤ (runOps (initSel bufW ⟨0, 0⟩)
        [PubOp.opStart, PubOp.opAddRange (SelectionRange.fromPositions 0 1 0 2) true]).primaryIndex ∧
        (runOps (initSel bufW ⟨0, 0⟩)
        [PubOp.opStart, PubOp.opAddRange (SelectionRange.fromPositions 0 1 0 2) true]).primaryIndex <
          (((runOps (initSel bufW ⟨0, 0⟩)
        [PubOp.opStart, PubOp.opAddRange (SelectionRange.fromPositions 0 1 0 2) true]).ranges.length : Int))) ∧
    ((runOps (initSel bufW ⟨0, 0⟩)
        [PubOp.opStart, PubOp.opAddRange (SelectionRange.fromPositions 0 1 0 2) true]).primaryIndex = -1 ↔
      (runOps (initSel bufW ⟨0, 0⟩)
        [PubOp.opStart, PubOp.opAddRange (SelectionRange.fromPositions 0 1 0 2) true]).ranges = []) :=
  primaryIndex_invariant bufW ⟨0, 0⟩
    [PubOp.opStart, PubOp.opAddRange (SelectionRange.fromPositions 0 1 0 2) true]
    ⟨trivial, Or.inl rfl, trivial⟩

/-- C9: every core operation that mutates the line sequence (`insertChar`,
`deleteChar`, `insertLine`, `undo`, `redo`, `loadFile`, `Selection.delete`,
`replaceRanges`, and the clipboard's multi-row cut) preserves the buffer
invariant, in particular that the sequence keeps at least one line.  For
`undo`/`redo` the invariant includes that recorded snapshots are non-empty
and the history index is in range, which all operations also maintain. -/
theorem buffer_ops_preserve_nonempty (b : BufferSt) (σ : SelSt)
    (hb : BufInv b) (hσ : BufInv σ.buffer) (row col : Nat) (ch content : Line)
    (cb : Callback) :
    BufInv (b.insertChar row col ch) ∧
    BufInv (b.deleteChar row col).1 ∧
    BufInv (b.insertLine row col) ∧
    BufInv b.undo.1 ∧
    BufInv b.redo.1 ∧
    BufInv (b.loadFileContent content) ∧
    BufInv σ.delete.1.buffer ∧
    BufInv (σ.replaceRanges cb).1.buffer ∧
    BufInv (cutLinesAtCursors σ).buffer :=
  ⟨insertChar_inv b row col ch hb, deleteChar_inv b row col hb,
    insertLine_inv b row col hb, undo_inv b hb, redo_inv b hb,
    loadFileContent_inv b content, selDelete_buf_inv σ hσ,
    replaceRanges_buf_inv σ cb hσ, cutLinesAtCursors_buf_inv σ hσ⟩

/-- C9 witness: the buffer invariant after each operation on concrete
states. -/
theorem buffer_ops_preserve_nonempty_witness :
    BufInv (bufW.insertChar 0 1 (str "x")) ∧
    BufInv (bufW.deleteChar 0 1).1 ∧
    BufInv (bufW.insertLine 0 1) ∧
    BufInv bufW.undo.1 ∧
    BufInv bufW.redo.1 ∧
    BufInv (bufW.loadFileContent (str "p\nq")) ∧
    BufInv selW.delete.1.buffer ∧
    BufInv (selW.replaceRanges cbX).1.buffer ∧
    BufInv (cutLinesAtCursors selW).buffer :=
  buffer_ops_preserve_nonempty bufW selW (by decide) (by decide) 0 1
    (str "x") (str "p\nq") cbX

/-- C6 (amended): after a modifying `replaceRanges`, every new range is a
collapsed range at its action's recorded end position and the set is their
(stable) sort; the new primary is the range at the index of the first
pre-edit range whose bounds key equals the original primary's — a lookup
that always succeeds when a primary exists, even when the primary's own
action was a skip; the last-range fallback occurs only when there is no
original primary. -/
theorem replaceRanges_new_primary_by_key (σ : SelSt) (cb : Callback)
    (h : (σ.replaceRanges cb).2 = true) :
    (∀ r ∈ (σ.replaceRanges cb).1.ranges, r.isEmpty = true) ∧
    (σ.replaceRanges cb).1.ranges = sortRangesList (replaceNewRanges σ cb) ∧
    (∀ pk, σ.primaryRange = some pk →
      ∃ i, ((sortRangesList σ.ranges).map (fun r => boundsKey r.getBounds)).findIdx?
          (fun k2 => k2 == boundsKey pk.getBounds) = some i ∧
        (σ.replaceRanges cb).1.primaryIndex = (i : Int)) ∧
    (σ.primaryRange = none →
      (σ.replaceRanges cb).1.primaryIndex = ((replaceNewRanges σ cb).length : Int) - 1) := by
  have hranges := replaceRanges_fst_ranges σ cb h
  have hpi := replaceRanges_fst_primaryIndex σ cb h
  have hasr : (replaceAssembled σ cb).ranges = sortRangesList (replaceNewRanges σ cb) :=
    setRanges_ranges_eq _ _ _
  have hlen_new := replaceNewRanges_length σ cb
  refine ⟨?_, ?_, ?_, ?_⟩
  · intro r hr
    rw [hranges, hasr] at hr
    exact replaceNewRanges_isEmpty σ cb r ((sortRangesList_perm _).mem_iff.1 hr)
  · rw [hranges, hasr]
  · intro pk hpk
    have hmemsorted : pk ∈ sortRangesList σ.ranges := by
      unfold sortRangesList
      rw [List.mem_insertionSort]
      exact primaryRange_mem σ pk hpk
    obtain ⟨i, hi⟩ := findIdx?_some_of_exists
      (fun k2 => k2 == boundsKey pk.getBounds)
      ((sortRangesList σ.ranges).map (fun r => boundsKey r.getBounds))
      ⟨boundsKey pk.getBounds, List.mem_map.2 ⟨pk, hmemsorted, rfl⟩, by simp⟩
    refine ⟨i, hi, ?_⟩
    have hilt := findIdx?_some_lt _ _ _ hi
    rw [List.length_map, sortRangesList_length] at hilt
    have hidx0 : replacePrimaryIdx0 σ cb = (i : Int) := by
      unfold replacePrimaryIdx0
      rw [hpk]
      simp only [Option.map_some']
      rw [hi]
    rw [hpi]
    unfold replaceAssembled
    rw [hidx0]
    exact setRanges_primaryIndex_of_valid _ _ _ (by omega) (by rw [hlen_new]; omega)
  · intro hnone
    have hidx0 : replacePrimaryIdx0 σ cb =
        ((replaceNewRanges σ cb).length : Int) - 1 := by
      unfold replacePrimaryIdx0
      rw [hnone]
      rfl
    have hact := ((replaceRanges_snd_true_iff σ cb).1 h).1
    have hne : σ.ranges ≠ [] := fun hcon => by simp [SelSt.active, hcon] at hact
    have hpos : 0 < σ.ranges.length := List.length_pos.2 hne
    rw [hpi]
    unfold replaceAssembled
    rw [hidx0]
    exact setRanges_primaryIndex_of_valid _ _ _ (by omega) (by omega)

/-- C6 counterexample: when the original primary's action is a skip
(callback returns `null` for it), the code still relocates the primary by
its bounds key (index 0 here) instead of falling back to the last range of
the new set — refuting the claim's skip-fallback clause. -/
theorem replaceRanges_skip_primary_counterexample :
    (selSkip.replaceRanges cbSkipFirst).2 = true ∧
    (computeAction cbSkipFirst (SelectionRange.fromPositions 0 0 0 0) 0).perform = false ∧
    (selSkip.replaceRanges cbSkipFirst).1.ranges.length = 2 ∧
    (selSkip.replaceRanges cbSkipFirst).1.primaryIndex = 0 ∧
    (selSkip.replaceRanges cbSkipFirst).1.primaryIndex ≠
      ((selSkip.replaceRanges cbSkipFirst).1.ranges.length : Int) - 1 := by
  decide

/-- C6 witness: the amended statement applied to a concrete modifying
call. -/
theorem replaceRanges_new_primary_by_key_witness :
    (∀ r ∈ (selW.replaceRanges cbX).1.ranges, r.isEmpty = true) ∧
    (selW.replaceRanges cbX).1.ranges = sortRangesList (replaceNewRanges selW cbX) ∧
    (∀ pk, selW.primaryRange = some pk →
      ∃ i, ((sortRangesList selW.ranges).map (fun r => boundsKey r.getBounds)).findIdx?
          (fun k2 => k2 == boundsKey pk.getBounds) = some i ∧
        (selW.replaceRanges cbX).1.primaryIndex = (i : Int)) ∧
    (selW.primaryRange = none →
      (selW.replaceRanges cbX).1.primaryIndex =
        ((replaceNewRanges selW cbX).length : Int) - 1) :=
  replaceRanges_new_primary_by_key selW cbX (by decide)

/-- C5 (amended): multi-cursor paste distribution is cyclic modulo the
number of clipboard lines `N = (splitOn nl).length` — covering `N = C`
(positional), `N > C`, `N < C`, and the single-line case — but the text
cursor `i` receives is routed through the JS falsy coalescing
`textParts[index] || textParts[last] || ""`: it is line `i mod N` when
that line is non-empty, and otherwise the distribution's last line,
line `(C-1) mod N` (nothing when that too is empty). -/
theorem paste_distribution_mod (content : Line) (lw : Bool) (C i : Nat)
    (hc : content ≠ []) (hi : i < C) :
    textForCursorJS ((ClipboardSt.mk content lw).prepareTextForDistribution C) i =
      jsOrLine ((content.splitOn nl).getD (i % (content.splitOn nl).length) [])
        ((content.splitOn nl).getD ((C - 1) % (content.splitOn nl).length) []) := by
  rw [prepare_eq_cyclic content lw C hc]
  unfold textForCursorJS
  have hlenp : ((List.range C).map
      (fun j => (content.splitOn nl).getD (j % (content.splitOn nl).length) [])).length = C := by
    simp
  have h1 : ((List.range C).map
      (fun j => (content.splitOn nl).getD (j % (content.splitOn nl).length) [])).getD i [] =
      (content.splitOn nl).getD (i % (content.splitOn nl).length) [] := by
    rw [List.getD_eq_getElem _ _ (by simpa using hi)]
    simp
  have h2 : ((List.range C).map
      (fun j => (content.splitOn nl).getD (j % (content.splitOn nl).length) [])).getD
        (((List.range C).map
          (fun j => (content.splitOn nl).getD (j % (content.splitOn nl).length) [])).length - 1) [] =
      (content.splitOn nl).getD ((C - 1) % (content.splitOn nl).length) [] := by
    rw [hlenp, List.getD_eq_getElem _ _ (by simp; omega)]
    simp
  rw [h1, h2, jsOrLine_nil]

/-- C5 counterexample: clipboard `"x\n\nz"` onto three empty cursors at
rows 0, 1, 2 of `["a","b","c"]`.  The claim's positional rule gives the
middle cursor the empty line (leaving `"b"`), but the code's falsy
coalescing hands it the last part `"z"`, producing `"zb"`. -/
theorem paste_empty_line_counterexample :
    (clipXZ.pasteMultiCursor selThree).2 = true ∧
    (clipXZ.pasteMultiCursor selThree).1.buffer.lines =
      [str "xa", str "zb", str "zc"] ∧
    (clipXZ.pasteMultiCursor selThree).1.buffer.lines.getD 1 [] ≠ str "b" := by
  decide

/-- C5 witness: the amended rule at clipboard `"x\ny"` with two cursors,
cursor 0. -/
theorem paste_distribution_mod_witness :
    textForCursorJS ((ClipboardSt.mk (str "x\ny") false).prepareTextForDistribution 2) 0 =
      jsOrLine (((str "x\ny").splitOn nl).getD (0 % ((str "x\ny").splitOn nl).length) [])
        (((str "x\ny").splitOn nl).getD ((2 - 1) % ((str "x\ny").splitOn nl).length) []) :=
  paste_distribution_mod (str "x\ny") false 2 0 (by decide) (by decide)

/-- C4: on `["test foo test", "test"]` with primary `(0,0)-(0,4)`, the
first `addNextOccurrence()` adds and makes primary `(0,9)-(0,13)`; the
second adds `(1,0)-(1,4)`; from that state a call with `loop := false`
returns `false`, and a call with `loop := true` wraps, re-adds nothing
(the state is unchanged — every match start is already present or is the
original primary's start, where the wrap stops) and returns `false`. -/
theorem addNextOccurrence_scenario :
    (SelSt.addNextOccurrence 100 selOcc false).2 = true ∧
    (SelSt.addNextOccurrence 100 selOcc false).1.ranges =
      [SelectionRange.fromPositions 0 0 0 4, SelectionRange.fromPositions 0 9 0 13] ∧
    (SelSt.addNextOccurrence 100 selOcc false).1.primaryRange =
      some (SelectionRange.fromPositions 0 9 0 13) ∧
    (SelSt.addNextOccurrence 100
        (SelSt.addNextOccurrence 100 selOcc false).1 false).2 = true ∧
    (SelSt.addNextOccurrence 100
        (SelSt.addNextOccurrence 100 selOcc false).1 false).1.ranges =
      [SelectionRange.fromPositions 0 0 0 4, SelectionRange.fromPositions 0 9 0 13,
        SelectionRange.fromPositions 1 0 1 4] ∧
    (SelSt.addNextOccurrence 100
        (SelSt.addNextOccurrence 100 selOcc false).1 false).1.primaryRange =
      some (SelectionRange.fromPositions 1 0 1 4) ∧
    (SelSt.addNextOccurrence 100
        (SelSt.addNextOccurrence 100
          (SelSt.addNextOccurrence 100 selOcc false).1 false).1 false).2 = false ∧
    (SelSt.addNextOccurrence 100
        (SelSt.addNextOccurrence 100
          (SelSt.addNextOccurrence 100 selOcc false).1 false).1 false).1 =
      (SelSt.addNextOccurrence 100
        (SelSt.addNextOccurrence 100 selOcc false).1 false).1 ∧
    (SelSt.addNextOccurrence 100
        (SelSt.addNextOccurrence 100
          (SelSt.addNextOccurrence 100 selOcc false).1 false).1 true).2 = false ∧
    (SelSt.addNextOccurrence 100
        (SelSt.addNextOccurrence 100
          (SelSt.addNextOccurrence 100 selOcc false).1 false).1 true).1 =
      (SelSt.addNextOccurrence 100
        (SelSt.addNextOccurrence 100 selOcc false).1 false).1 := by
  decide

/-- C2: `replaceRanges` applies its non-skipped actions bottom-to-top in
action order (last action first); whenever every performed action's
normalized target bounds denote a valid span of the pre-call buffer and the
targets are pairwise disjoint and ascending in action order, the resulting
buffer text equals the simultaneous replacement — against the pre-call
contents and flat coordinates — of each target span by its replacement
text. -/
theorem replaceRanges_disjoint_simultaneous (σ : SelSt) (cb : Callback)
    (hact : σ.active = true)
    (hv : ∀ a ∈ (replaceActions σ cb).filter (fun x => x.perform),
      ValidBounds σ.buffer.lines a.bounds)
    (hch : ChainActs ((replaceActions σ cb).filter (fun x => x.perform))) :
    BufferSt.getText (σ.replaceRanges cb).1.buffer =
      simReplace (BufferSt.getText σ.buffer)
        (flatSpans σ.buffer.lines
          ((replaceActions σ cb).filter (fun x => x.perform))) := by
  by_cases hany : (replaceActions σ cb).any (fun x => x.perform) = true
  · have hsnd : (σ.replaceRanges cb).2 = true :=
      (replaceRanges_snd_true_iff σ cb).2 ⟨hact, hany⟩
    rw [replaceRanges_fst_buffer σ cb hsnd]
    show BufferSt.joinLines
        (applyActionsDesc (replaceActions σ cb) σ.buffer.saveToHistory.lines).1 =
      simReplace (BufferSt.getText σ.buffer)
        (flatSpans σ.buffer.lines
          ((replaceActions σ cb).filter (fun x => x.perform)))
    rw [saveToHistory_lines, applyActionsDesc_fst_filter]
    have hperf : ∀ x ∈ (replaceActions σ cb).filter (fun x => x.perform),
        x.perform = true :=
      fun x hx => (List.mem_filter.mp hx).2
    exact (applyActionsDesc_flat σ.buffer.lines _ hperf hv hch).1
  · have hany' : (replaceActions σ cb).any (fun x => x.perform) = false := by
      revert hany
      cases (replaceActions σ cb).any (fun x => x.perform) <;> simp
    rw [replaceRanges_of_any_false σ cb hany']
    have hfilt : (replaceActions σ cb).filter (fun x => x.perform) = [] := by
      rw [List.filter_eq_nil_iff]
      exact List.any_eq_false.mp hany'
    rw [hfilt]
    rfl

/-- C2 counterexample to the unamended claim: on the one-line buffer
`"abcdef"`, callback-supplied target bounds `[4,6)` (for action 0, text
`"X"`) and `[0,2)` (for action 1, text `"Y"`) are valid and pairwise
disjoint, yet the code's bottom-to-top action-order application yields
`"YcdeX"` while simultaneously replacing the two spans yields `"YcdX"`:
with explicit bounds, descending action order need not be descending
document order, so disjointness alone does not give the simultaneous
semantics. -/
theorem replaceRanges_swapped_bounds_counterexample :
    (∀ a ∈ (replaceActions selSwap cbSwapTargets).filter (fun x => x.perform),
        ValidBounds selSwap.buffer.lines a.bounds) ∧
    List.Pairwise
      (fun a b => posLe a.bounds.endPos b.bounds.startPos ∨
        posLe b.bounds.endPos a.bounds.startPos)
      ((replaceActions selSwap cbSwapTargets).filter (fun x => x.perform)) ∧
    flatSpans selSwap.buffer.lines
        ((replaceActions selSwap cbSwapTargets).filter (fun x => x.perform)) =
      [(4, 6, str "X"), (0, 2, str "Y")] ∧
    BufferSt.getText (selSwap.replaceRanges cbSwapTargets).1.buffer = str "YcdeX" ∧
    simReplace (BufferSt.getText selSwap.buffer) [(0, 2, str "Y"), (4, 6, str "X")] =
      str "YcdX" ∧
    str "YcdeX" ≠ str "YcdX" := by
  decide

/-- C2 witness: two disjoint ascending one-character ranges of `"abcd"`
both replaced by `"Z"`; the hypotheses hold and the code's result equals
the simultaneous replacement. -/
theorem replaceRanges_disjoint_simultaneous_witness :
    selC2W.active = true ∧
    (∀ a ∈ (replaceActions selC2W cbZ).filter (fun x => x.perform),
        ValidBounds selC2W.buffer.lines a.bounds) ∧
    ChainActs ((replaceActions selC2W cbZ).filter (fun x => x.perform)) ∧
    BufferSt.getText (selC2W.replaceRanges cbZ).1.buffer =
      simReplace (BufferSt.getText selC2W.buffer)
        (flatSpans selC2W.buffer.lines
          ((replaceActions selC2W cbZ).filter (fun x => x.perform))) :=
  ⟨by decide, by decide, by decide,
    replaceRanges_disjoint_simultaneous selC2W cbZ (by decide) (by decide) (by decide)⟩

end SilentEdit
